import Mathlib
/-!
Verification of the dependency-aware task scheduler of the context42 repository
(src/lib/processor: createStyleGuideProcessor and runTasks) and of the database
helper getChildStyleGuides (src/lib/database.ts).
The processor is embedded as a small-step state machine: a scheduler state
records the pending-dependency counts, the ready queue, the in-flight tasks with
their assigned worker ids, the completion log, the artifact pushes, the tracked
file set, the worker pool and the progress counter.  An action either starts the
task at the head of the ready queue (PQueue dispatch plus getWorker) or finishes
an in-flight task with a success flag (the generator resolving or throwing);
each action performs exactly the synchronous bookkeeping the code performs at
that point.  Strings are modelled at the level of their character lists.
-/
set_option maxHeartbeats 1000000

/-- A FileGroup (the spec's WorkUnit): all files of one language in one
directory, as produced by the explorer. -/
structure FileGroup where
  language : String
  directory : String
  files : List String
deriving DecidableEq, Repr

/-- Processor run: isChildOf(child, parent) = child.startsWith(parent + "/")
and child !== parent.  startsWith is modelled character-wise. -/
def isChildOf (child parent : String) : Bool :=
  (parent ++ "/").data.isPrefixOf child.data && child != parent

/-- Processor run: getTaskId(group) = language + ":" + directory. -/
def getTaskId (g : FileGroup) : String :=
  g.language ++ ":" ++ g.directory

/-- Processor run: the isDirectParent check — no other same-language group
sits strictly between group and potentialParent. -/
def isDirectParent (groups : List FileGroup) (g p : FileGroup) : Bool :=
  !(groups.any fun m =>
    m.language == g.language && m.directory != g.directory &&
    m.directory != p.directory && isChildOf g.directory m.directory &&
    isChildOf m.directory p.directory)

/-- Processor run: the double loop building the dependency edges
[child, parent] (child must complete before parent starts). -/
def buildEdges (groups : List FileGroup) : List (String × String) :=
  groups.flatMap fun g =>
    (groups.filter fun p =>
      g.language == p.language && isChildOf g.directory p.directory &&
      isDirectParent groups g p).map fun p => (getTaskId g, getTaskId p)

/-- Lookup of the group belonging to a task id. -/
def findGroup (groups : List FileGroup) (id : String) : Option FileGroup :=
  groups.find? fun g => getTaskId g == id

/-- Task success: styleFilePath = join(group.directory, "style." + language + ".md"). -/
def artifactPath (g : FileGroup) : String :=
  g.directory ++ "/" ++ ("style." ++ g.language ++ ".md")

/-- What a successful task appends to createdStyleGuides, keyed by id. -/
def pushOf (groups : List FileGroup) (id : String) : String × String :=
  match findGroup groups id with
  | some g => (g.language, artifactPath g)
  | none => ("", "")

/-- Number of files of the unit with the given id. -/
def filesLenOf (groups : List FileGroup) (id : String) : Nat :=
  match findGroup groups id with
  | some g => g.files.length
  | none => 0

/-- JS Map read with the code's fallback to 0 (inDeg.get(k) ?? 0). -/
def alGet : List (String × Int) → String → Int
  | [], _ => 0
  | (k', v) :: t, k => if k' == k then v else alGet t k

/-- JS Map.set: replace the value at an existing key in place, else append. -/
def alSet : List (String × Int) → String → Int → List (String × Int)
  | [], k, v => [(k, v)]
  | (k', v') :: t, k, v =>
    if k' == k then (k', v) :: t else (k', v') :: alSet t k v

/-- runTasks initialisation: every task id gets count 0, then every edge
[child, parent] increments the parent's count. -/
def initInDeg (ids : List String) (edges : List (String × String)) :
    List (String × Int) :=
  edges.foldl (fun m e => alSet m e.2 (alGet m e.2 + 1))
    (ids.map fun id => (id, (0 : Int)))

/-- Worker status as in types.ts. -/
inductive WStatus where
  | idle
  | working
  | success
  | error
deriving DecidableEq, Repr

/-- One of the `concurrency` worker slots, with its observable fields. -/
structure Worker where
  id : Nat
  status : WStatus
  language : Option String
  directory : Option String
  error : Option String
  progress : Option String
deriving DecidableEq, Repr

/-- Worker as created at processor construction: id with status idle. -/
def mkIdleWorker (i : Nat) : Worker :=
  ⟨i, WStatus.idle, none, none, none, none⟩

/-- The scheduler's atomic transitions: PQueue dispatching the head of the
ready queue to a task that acquires a worker, or an in-flight task settling
(generateStyleGuide resolved when ok, threw or was aborted when not ok). -/
inductive Act where
  | start : String → Act
  | finish : String → Bool → Act
deriving DecidableEq, Repr

/-- State of one run: closure state of run/runTasks at a quiescent point.
done records completion order together with the task's success flag; pushes is
createdStyleGuides flattened in push order; running pairs each in-flight task
with the worker id it holds. -/
structure SchedState where
  inDeg : List (String × Int)
  ready : List String
  running : List (String × Nat)
  done : List (String × Bool)
  pushes : List (String × String)
  createdFiles : List String
  workers : List Worker
  freeQ : List Nat
  completed : Nat
  progressLog : List Nat
deriving DecidableEq, Repr

instance : Inhabited SchedState :=
  ⟨⟨[], [], [], [], [], [], [], [], 0, []⟩⟩

/-- The loop over outAdj.get(id) after a task settles: decrement each
dependent's count and enqueue it when the count reaches zero. -/
def unlockFold : List String → List (String × Int) →
    List (String × Int) × List String
  | [], m => (m, [])
  | p :: ps, m =>
    let v := alGet m p - 1
    let r := unlockFold ps (alSet m p v)
    (r.1, if v == 0 then p :: r.2 else r.2)

/-- updateWorker: assign the given fields to the worker with this id. -/
def updateWorkerL (ws : List Worker) (i : Nat) (f : Worker → Worker) :
    List Worker :=
  ws.map fun w => if w.id == i then f w else w

/-- Effect of a task starting: it leaves the ready queue, acquires the worker
at the front of the free queue and marks it working with its language and
directory (updateWorker with a partial update). -/
def startUpd (s : SchedState) (id : String) (rest : List String) (w : Nat)
    (ws : List Nat) (g : FileGroup) : SchedState :=
  { s with
    ready := rest
    running := s.running ++ [(id, w)]
    freeQ := ws
    workers := updateWorkerL s.workers w fun wk =>
      { wk with
        status := WStatus.working
        language := some g.language
        directory := some g.directory } }

/-- Effect of a task settling with success flag ok: on success push the
artifact and track the file; always release the worker to the back of the free
queue, reset its observable fields, advance completed by the group's file count
and log the onProgress call; mark the task completed and decrement each
dependent's count, enqueueing the ones that reach zero. -/
def finishUpd (edges : List (String × String)) (s : SchedState) (id : String)
    (ok : Bool) (w : Nat) (g : FileGroup) : SchedState :=
  let parents := ((edges.filter fun e => e.1 == id).map fun e => e.2)
  let unlocked := unlockFold parents s.inDeg
  let path := artifactPath g
  let newCompleted := s.completed + g.files.length
  { inDeg := unlocked.1
    ready := s.ready ++ unlocked.2
    running := s.running.filter fun t => t.1 != id
    done := s.done ++ [(id, ok)]
    pushes := if ok then s.pushes ++ [(g.language, path)] else s.pushes
    createdFiles :=
      if ok then
        if s.createdFiles.contains path then s.createdFiles
        else s.createdFiles ++ [path]
      else s.createdFiles
    workers := updateWorkerL s.workers w fun wk =>
      { wk with
        status := WStatus.idle
        language := none
        directory := none
        error := none
        progress := none }
    freeQ := s.freeQ ++ [w]
    completed := newCompleted
    progressLog := s.progressLog ++ [newCompleted] }

/-- One atomic scheduler transition; none when the action is not enabled.
start id: PQueue (bounded by concurrency) starts the wrapper of the first
enqueued task; the task shifts a worker id off the front of workerQueue and
marks it working with its language and directory.
finish id ok: the task's synchronous tail runs: on success save the artifact
push and track the file; always release the worker to the back of workerQueue,
reset its observable fields to idle, advance completed by the group's file
count and invoke onProgress; then the wrapper marks the task completed,
decrements each dependent's pending count and enqueues those reaching zero.
The transient success/error status update is observable only through the
onWorkerUpdate callback and is immediately overwritten in the finally block,
so the post-state records the settled idle worker. -/
def stepFn (c : Nat) (groups : List FileGroup) (edges : List (String × String))
    (s : SchedState) : Act → Option SchedState
  | Act.start id =>
    match s.ready with
    | [] => none
    | rid :: rest =>
      if rid = id ∧ s.running.length < c then
        match s.freeQ, findGroup groups id with
        | w :: ws, some g => some (startUpd s id rest w ws g)
        | _, _ => none
      else none
  | Act.finish id ok =>
    match s.running.find? (fun t => t.1 == id), findGroup groups id with
    | some (_, w), some g => some (finishUpd edges s id ok w g)
    | _, _ => none

/-- Initial state of a run: counts from the edge set, ready queue seeded with
the zero-count tasks in insertion order, concurrency workers all idle and all
free, completed counter reset to 0. -/
def initState (c : Nat) (groups : List FileGroup) : SchedState :=
  let ids := groups.map getTaskId
  let edges := buildEdges groups
  let m := initInDeg ids edges
  { inDeg := m
    ready := ids.filter fun id => alGet m id == 0
    running := []
    done := []
    pushes := []
    createdFiles := []
    workers := (List.range c).map fun i => mkIdleWorker (i + 1)
    freeQ := (List.range c).map fun i => i + 1
    completed := 0
    progressLog := [] }

/-- Iterate transitions from a state. -/
def stepsFrom (c : Nat) (groups : List FileGroup)
    (edges : List (String × String)) : SchedState → List Act → Option SchedState
  | s, [] => some s
  | s, a :: as =>
    match stepFn c groups edges s a with
    | none => none
    | some s' => stepsFrom c groups edges s' as

/-- Execute a run along a schedule of atomic transitions. -/
def runActs (c : Nat) (groups : List FileGroup) (acts : List Act) :
    Option SchedState :=
  stepsFrom c groups (buildEdges groups) (initState c groups) acts

/-- A run has settled: nothing ready and nothing in flight (q.onIdle resolved). -/
def Settled (s : SchedState) : Prop :=
  s.ready = [] ∧ s.running = []

/-- createdStyleGuides key set: languages in first-push (Map insertion) order. -/
def langsOf (pushes : List (String × String)) : List String :=
  pushes.foldl (fun acc lp => if acc.contains lp.1 then acc else acc ++ [lp.1]) []

/-- createdStyleGuides.get(l): all pushed artifact paths of one language in
push order. -/
def guidesFor (pushes : List (String × String)) (l : String) : List String :=
  (pushes.filter fun lp => lp.1 == l).map fun lp => lp.2

/-- Outcome of the promotion and cleanup phase at the end of run. -/
structure RunEnd where
  attempts : List (String × String)
  renamed : List (String × String)
  results : List (String × String)
  deleted : List String
deriving DecidableEq, Repr

/-- End of run: per language attempt one rename of the last created artifact
into outputDir as language.md, dropping the source from the tracked set only
when the rename succeeded (renameOk); build the returned results map from the
createdStyleGuides keys; finally unlink every still-tracked file, ignoring
unlink errors (a missing file is tolerated). -/
def finishRun (outputDir : String) (pushes : List (String × String))
    (createdFiles : List String) (renameOk : String → Bool) : RunEnd :=
  let langs := langsOf pushes
  let attempts := langs.filterMap fun l =>
    (guidesFor pushes l).getLast?.map fun src =>
      (src, outputDir ++ "/" ++ (l ++ ".md"))
  let renamed := langs.filterMap fun l =>
    if renameOk l then
      (guidesFor pushes l).getLast?.map fun src =>
        (src, outputDir ++ "/" ++ (l ++ ".md"))
    else none
  { attempts := attempts
    renamed := renamed
    results := langs.map fun l => (l, l ++ ".md")
    deleted := createdFiles.filter fun p => !((renamed.map Prod.fst).contains p) }

/-- Identifier injectivity: the property that no two groups share a task id. -/
def IdInj (groups : List FileGroup) : Prop :=
  ∀ g ∈ groups, ∀ g' ∈ groups, getTaskId g = getTaskId g' → g = g'

/-! An occurrence-order relation on lists, used to state that completions and
artifact pushes respect the dependency edges. -/
/-- a occurs strictly before b in l. -/
def inOrder {α : Type} (l : List α) (a b : α) : Prop :=
  ∃ l1 l2 l3, l = l1 ++ a :: (l2 ++ b :: l3)

/-- Invariant tying together every component of a scheduler state during a
run over the given groups with the given concurrency. -/
structure RunInv (c : Nat) (groups : List FileGroup) (s : SchedState) : Prop where
  ready_mem : ∀ id ∈ s.ready, id ∈ groups.map getTaskId
  running_mem : ∀ id ∈ s.running.map Prod.fst, id ∈ groups.map getTaskId
  done_mem : ∀ id ∈ s.done.map Prod.fst, id ∈ groups.map getTaskId
  nodupIds :
    (s.ready ++ (s.running.map Prod.fst ++ s.done.map Prod.fst)).Nodup
  count : ∀ x, alGet s.inDeg x =
    (((buildEdges groups).filter fun e =>
      e.2 == x && !((s.done.map Prod.fst).contains e.1)).length : Int)
  edge_done : ∀ e ∈ buildEdges groups,
    (e.2 ∈ s.ready ∨ e.2 ∈ s.running.map Prod.fst ∨
      e.2 ∈ s.done.map Prod.fst) → e.1 ∈ s.done.map Prod.fst
  edge_order : ∀ e ∈ buildEdges groups, e.2 ∈ s.done.map Prod.fst →
    inOrder (s.done.map Prod.fst) e.1 e.2
  zero_placed : ∀ id ∈ groups.map getTaskId, alGet s.inDeg id = 0 →
    id ∈ s.ready ∨ id ∈ s.running.map Prod.fst ∨ id ∈ s.done.map Prod.fst
  workers_ids : s.workers.map Worker.id = (List.range c).map (· + 1)
  free_perm :
    List.Perm (s.freeQ ++ s.running.map Prod.snd) ((List.range c).map (· + 1))
  not_held_idle : ∀ w ∈ s.workers, w.id ∉ s.running.map Prod.snd →
    w = mkIdleWorker w.id
  held_working : ∀ w ∈ s.workers, w.id ∈ s.running.map Prod.snd →
    w.status = WStatus.working
  completed_sum : s.completed = (s.done.map fun d => filesLenOf groups d.1).sum
  pushes_eq : s.pushes = (s.done.filter fun d => d.2).map fun d =>
    pushOf groups d.1
  created_iff : ∀ p, p ∈ s.createdFiles ↔ ∃ lp ∈ s.pushes, lp.2 = p

/-! Model of database.ts getChildStyleGuides: the SQL filter (run_id, language,
LIKE pattern, inequality), the immediate-child filter on the sliced path, and
node's path.relative for already-normalized posix paths (resolution against the
working directory is not modelled). -/
/-- One row of the style_guides table. -/
structure DBRow where
  run_id : String
  language : String
  content : String
  directory : String
deriving DecidableEq, Repr

/-- SQLite LIKE folds ASCII letters case-insensitively. -/
def foldChar (ch : Char) : Char :=
  if 'A' ≤ ch ∧ ch ≤ 'Z' then Char.ofNat (ch.toNat + 32) else ch

/-- SQLite LIKE matching: percent matches any run, underscore one character,
anything else itself up to ASCII case. -/
def likeM : List Char → List Char → Bool
  | [], s => s.isEmpty
  | p :: ps, s =>
    if p = '%' then
      likeM ps s ||
        (match s with
          | [] => false
          | _ :: s' => likeM (p :: ps) s')
    else
      match s with
      | [] => false
      | ch :: s' =>
        (if p = '_' then true else foldChar p == foldChar ch) && likeM ps s'
termination_by p s => (p.length, s.length)

/-- Split a path into chunks at every separator. -/
def splitOnSlash : List Char → List (List Char)
  | [] => [[]]
  | ch :: rest =>
    if ch = '/' then [] :: splitOnSlash rest
    else
      match splitOnSlash rest with
      | [] => [[ch]]
      | s :: ss => (ch :: s) :: ss

/-- Path segments: the nonempty chunks. -/
def splitSegs (l : List Char) : List (List Char) :=
  (splitOnSlash l).filter fun s => !s.isEmpty

/-- Drop the common prefix of two segment lists. -/
def dropCommon : List (List Char) → List (List Char) →
    List (List Char) × List (List Char)
  | a :: as, b :: bs => if a = b then dropCommon as bs else (a :: as, b :: bs)
  | as, bs => (as, bs)

/-- Join segments with separators. -/
def joinSlash : List (List Char) → List Char
  | [] => []
  | [x] => x
  | x :: xs => x ++ '/' :: joinSlash xs

/-- node path.relative for normalized posix paths: walk up with dotdot for
every remaining segment of the start path, then down the remaining segments
of the target. -/
def relativeP (fromP toP : String) : String :=
  let d := dropCommon (splitSegs fromP.data) (splitSegs toP.data)
  String.mk (joinSlash (d.1.map (fun _ => ['.', '.']) ++ d.2))

/-- database.ts getChildStyleGuides: select rows of this run and language
whose directory is LIKE parent/% and differs from the parent, keep those whose
slice after the parent contains no separator, and return them relative to the
parent. -/
def getChildStyleGuides (rows : List DBRow) (runId : String)
    (parentDirectory language : String) : List (String × String) :=
  let matched := rows.filter fun r =>
    r.run_id == runId && r.language == language &&
    likeM (parentDirectory ++ "/%").data r.directory.data &&
    r.directory != parentDirectory
  let immediateChildren := matched.filter fun r =>
    !((r.directory.data.drop (parentDirectory.length + 1)).contains '/')
  immediateChildren.map fun r => (relativeP parentDirectory r.directory, r.content)

/-! Concrete inputs used to evaluate the theorems on closed instances. -/
/-- Two ts units with the inner directory a strict child of the outer. -/
def exGroups : List FileGroup :=
  [⟨"ts", "/app/src", ["a.ts", "b.ts"]⟩, ⟨"ts", "/app", ["c.ts"]⟩]

/-- Run the child to success only. -/
def exActs1 : List Act :=
  [Act.start "ts:/app/src", Act.finish "ts:/app/src" true]

/-- Complete run in which the child succeeds and the parent fails. -/
def exActsFail : List Act :=
  [Act.start "ts:/app/src", Act.finish "ts:/app/src" true,
   Act.start "ts:/app", Act.finish "ts:/app" false]

/-- Complete successful run. -/
def exActsFull : List Act :=
  [Act.start "ts:/app/src", Act.finish "ts:/app/src" true,
   Act.start "ts:/app", Act.finish "ts:/app" true]

/-- Two independent ts units in sibling directories. -/
def cxGroups : List FileGroup :=
  [⟨"ts", "/a", ["f.ts"]⟩, ⟨"ts", "/b", ["g.ts"]⟩]

/-- Both start, the unit at /a settles first. -/
def cxActsA : List Act :=
  [Act.start "ts:/a", Act.start "ts:/b",
   Act.finish "ts:/a" true, Act.finish "ts:/b" true]

/-- Both start, the unit at /b settles first. -/
def cxActsB : List Act :=
  [Act.start "ts:/a", Act.start "ts:/b",
   Act.finish "ts:/b" true, Act.finish "ts:/a" true]

/-- A database with one row whose directory is not below the parent /a%
queried in the counterexample but matches its LIKE pattern. -/
def cx9rows : List DBRow := [⟨"r", "ts", "x", "/ab/cd"⟩]

/-- A database with one immediate child row below /app. -/
def ex9rows : List DBRow := [⟨"r", "ts", "guide", "/app/src"⟩]

/-- C7 spec-side reading of the edge rule, written from the specification's
words: same language, g.directory starts with p.directory followed by the
path separator and the two differ, and no other same-language unit m has a
directory that is a strict descendant of p.directory and a strict ancestor
of g.directory. -/
def specDirectEdge (groups : List FileGroup) (g p : FileGroup) : Prop :=
  g.language = p.language ∧
  ((p.directory ++ "/").data.isPrefixOf g.directory.data = true ∧
    g.directory ≠ p.directory) ∧
  ¬ ∃ m ∈ groups, m.language = g.language ∧
      ((p.directory ++ "/").data.isPrefixOf m.directory.data = true ∧
        m.directory ≠ p.directory) ∧
      ((m.directory ++ "/").data.isPrefixOf g.directory.data = true ∧
        m.directory ≠ g.directory)

theorem alGet_alSet_self (m : List (String × Int)) (k : String) (v : Int) :
    alGet (alSet m k v) k = v := by
  induction m with
  | nil => simp [alGet, alSet]
  | cons h t ih =>
    obtain ⟨k', v'⟩ := h
    by_cases hk : k' = k
    · simp [alGet, alSet, hk]
    · simp only [alSet, alGet, beq_iff_eq, hk, if_false, if_neg hk]
      exact ih

theorem alGet_alSet_ne (m : List (String × Int)) (k k' : String) (v : Int)
    (h : k' ≠ k) : alGet (alSet m k v) k' = alGet m k' := by
  induction m with
  | nil => simp [alGet, alSet, beq_iff_eq, Ne.symm h]
  | cons hd t ih =>
    obtain ⟨a, b⟩ := hd
    by_cases ha : a = k
    · subst ha
      simp [alGet, alSet, beq_iff_eq, Ne.symm h]
    · simp only [alSet, alGet, beq_iff_eq, if_neg ha]
      by_cases ha' : a = k'
      · simp [ha']
      · simp only [if_neg ha']
        exact ih

theorem alGet_zeros (ids : List String) (x : String) :
    alGet (ids.map fun id => (id, (0 : Int))) x = 0 := by
  induction ids with
  | nil => simp [alGet]
  | cons h t ih =>
    simp only [List.map_cons, alGet]
    split <;> simp [ih]

theorem alGet_foldl_inc (es : List (String × String))
    (m : List (String × Int)) (x : String) :
    alGet (es.foldl (fun m e => alSet m e.2 (alGet m e.2 + 1)) m) x
      = alGet m x + ((es.filter fun e => e.2 == x).length : Int) := by
  induction es generalizing m with
  | nil => simp
  | cons e t ih =>
    simp only [List.foldl_cons, List.filter_cons]
    rw [ih]
    by_cases hx : e.2 = x
    · subst hx
      simp [alGet_alSet_self]
      ring
    · rw [alGet_alSet_ne _ _ _ _ fun h => hx h.symm]
      simp [beq_iff_eq, hx]

theorem alGet_initInDeg (ids : List String) (edges : List (String × String))
    (x : String) :
    alGet (initInDeg ids edges) x
      = ((edges.filter fun e => e.2 == x).length : Int) := by
  unfold initInDeg
  rw [alGet_foldl_inc, alGet_zeros, zero_add]

/-! Basic facts about the edge construction and the directory order. -/
theorem isChildOf_iff {a b : String} :
    isChildOf a b = true ↔ (b.data ++ ['/']) <+: a.data ∧ a ≠ b := by
  unfold isChildOf
  rw [Bool.and_eq_true, List.isPrefixOf_iff_prefix, bne_iff_ne]
  constructor
  · rintro ⟨h1, h2⟩
    refine ⟨?_, h2⟩
    rwa [String.data_append] at h1
  · rintro ⟨h1, h2⟩
    refine ⟨?_, h2⟩
    rwa [String.data_append]

theorem isChildOf_length {a b : String} (h : isChildOf a b = true) :
    b.data.length < a.data.length := by
  obtain ⟨h1, -⟩ := isChildOf_iff.mp h
  have := h1.length_le
  rw [List.length_append, List.length_singleton] at this
  omega

theorem isChildOf_trans {a b c : String} (h1 : isChildOf a b = true)
    (h2 : isChildOf b c = true) : isChildOf a c = true := by
  obtain ⟨p1, -⟩ := isChildOf_iff.mp h1
  obtain ⟨p2, -⟩ := isChildOf_iff.mp h2
  have hba : b.data <+: a.data := (List.prefix_append b.data ['/']).trans p1
  refine isChildOf_iff.mpr ⟨p2.trans hba, ?_⟩
  intro hac
  have l1 := isChildOf_length h1
  have l2 := isChildOf_length h2
  rw [hac] at l1
  omega

theorem isChildOf_compare {a b c : String} (hab : isChildOf a b = true)
    (hac : isChildOf a c = true) (hlen : b.data.length ≤ c.data.length) :
    b = c ∨ isChildOf c b = true := by
  obtain ⟨pb, -⟩ := isChildOf_iff.mp hab
  obtain ⟨pc, -⟩ := isChildOf_iff.mp hac
  by_cases heq : b.data.length = c.data.length
  · left
    have h1 : (b.data ++ ['/']) <+: (c.data ++ ['/']) :=
      List.prefix_of_prefix_length_le pb pc
        (by rw [List.length_append, List.length_append]; omega)
    have h2 := h1.eq_of_length
      (by rw [List.length_append, List.length_append]; omega)
    have := List.append_left_injective _ h2
    exact String.ext this
  · right
    have hlt : b.data.length < c.data.length := lt_of_le_of_ne hlen heq
    have hcpre : c.data <+: a.data := (List.prefix_append c.data ['/']).trans pc
    have h1 : (b.data ++ ['/']) <+: c.data :=
      List.prefix_of_prefix_length_le pb hcpre
        (by rw [List.length_append, List.length_singleton]; omega)
    refine isChildOf_iff.mpr ⟨h1, ?_⟩
    intro h
    rw [h] at hlt
    omega

theorem mem_buildEdges {groups : List FileGroup} {x y : String} :
    (x, y) ∈ buildEdges groups ↔
      ∃ g ∈ groups, ∃ p ∈ groups, x = getTaskId g ∧ y = getTaskId p ∧
        g.language = p.language ∧ isChildOf g.directory p.directory = true ∧
        isDirectParent groups g p = true := by
  unfold buildEdges
  simp only [List.mem_flatMap, List.mem_map, List.mem_filter, Bool.and_eq_true,
    beq_iff_eq, Prod.mk.injEq]
  constructor
  · rintro ⟨g, hg, p, ⟨hp, ⟨⟨hl, hc⟩, hd⟩⟩, hx, hy⟩
    exact ⟨g, hg, p, hp, hx.symm, hy.symm, hl, hc, hd⟩
  · rintro ⟨g, hg, p, hp, hx, hy, hl, hc, hd⟩
    exact ⟨g, hg, p, ⟨hp, ⟨⟨hl, hc⟩, hd⟩⟩, hx.symm, hy.symm⟩

theorem idInj_of_nodup {groups : List FileGroup}
    (h : (groups.map getTaskId).Nodup) : IdInj groups :=
  fun _ hg _ hg' heq => List.inj_on_of_nodup_map h hg hg' heq

theorem findGroup_mem {groups : List FileGroup} {id : String} {g : FileGroup}
    (h : findGroup groups id = some g) : g ∈ groups ∧ getTaskId g = id := by
  refine ⟨List.mem_of_find?_eq_some h, ?_⟩
  have := List.find?_some h
  exact beq_iff_eq.mp this

theorem findGroup_isSome {groups : List FileGroup} {id : String}
    (h : id ∈ groups.map getTaskId) : ∃ g, findGroup groups id = some g := by
  simp only [List.mem_map] at h
  obtain ⟨g, hg, hid⟩ := h
  have : (findGroup groups id).isSome := by
    rw [findGroup, List.find?_isSome]
    exact ⟨g, hg, by simp [hid]⟩
  obtain ⟨g', hg'⟩ := Option.isSome_iff_exists.mp this
  exact ⟨g', hg'⟩

theorem findGroup_self {groups : List FileGroup} {g : FileGroup}
    (hinj : IdInj groups) (hg : g ∈ groups) :
    findGroup groups (getTaskId g) = some g := by
  obtain ⟨g', hfind⟩ := findGroup_isSome (List.mem_map_of_mem getTaskId hg)
  obtain ⟨hmem, hid⟩ := findGroup_mem hfind
  rw [hfind, hinj g' hmem g hg hid]

/-! Generic list helpers. -/
theorem nodup_flatMapOf {α β : Type} [DecidableEq β] (l : List α)
    (f : α → List β) (h1 : ∀ a ∈ l, (f a).Nodup)
    (h2 : List.Pairwise (fun a b => ∀ x ∈ f a, x ∉ f b) l) :
    (l.flatMap f).Nodup := by
  induction l with
  | nil => simp
  | cons a t ih =>
    rw [List.flatMap_cons, List.nodup_append]
    rw [List.pairwise_cons] at h2
    refine ⟨h1 a (by simp), ih (fun b hb => h1 b (by simp [hb])) h2.2, ?_⟩
    intro x hx hx'
    rw [List.mem_flatMap] at hx'
    obtain ⟨b, hb, hxb⟩ := hx'
    exact h2.1 b hb x hx hxb

theorem map_filter_comm {α β : Type} (f : α → β) (p : β → Bool) (l : List α) :
    (l.filter fun x => p (f x)).map f = (l.map f).filter p := by
  induction l with
  | nil => rfl
  | cons a t ih =>
    by_cases h : p (f a)
    · simp [List.filter_cons, h, ih]
    · simp [List.filter_cons, h, ih]

theorem length_filter_split {α : Type} (l : List α) (p q : α → Bool) :
    (l.filter fun x => p x && !(q x)).length +
      (l.filter fun x => p x && q x).length = (l.filter p).length := by
  induction l with
  | nil => rfl
  | cons a t ih =>
    by_cases hp : p a
    · by_cases hq : q a
      · simp [List.filter_cons, hp, hq]
        omega
      · simp [List.filter_cons, hp, hq]
        omega
    · simp [List.filter_cons, hp, ih]

theorem length_filter_beq_of_nodup {α : Type} [DecidableEq α] (l : List α)
    (hl : l.Nodup) (a : α) :
    (l.filter fun x => x == a).length = if a ∈ l then 1 else 0 := by
  rw [← List.countP_eq_length_filter, ← List.count_eq_countP]
  by_cases h : a ∈ l
  · rw [List.count_eq_one_of_mem hl h, if_pos h]
  · rw [List.count_eq_zero_of_not_mem h, if_neg h]

theorem length_filter_eqd_of_nodup {α : Type} [DecidableEq α] (l : List α)
    (hl : l.Nodup) (a : α) :
    (l.filter fun x => decide (x = a)).length = if a ∈ l then 1 else 0 := by
  induction l with
  | nil => simp
  | cons b t ih =>
    rw [List.nodup_cons] at hl
    by_cases hb : b = a
    · subst hb
      have ht : t.filter (fun x => decide (x = b)) = [] := by
        rw [List.filter_eq_nil_iff]
        intro x hx hd
        rw [decide_eq_true_eq] at hd
        exact hl.1 (hd ▸ hx)
      simp [List.filter_cons, ht]
    · rw [List.filter_cons]
      have hne : a ≠ b := fun h => hb h.symm
      simp [hb, ih hl.2, hne]

theorem buildEdges_nodup {groups : List FileGroup}
    (HN : (groups.map getTaskId).Nodup) : (buildEdges groups).Nodup := by
  have hinj := idInj_of_nodup HN
  have hgroups : groups.Nodup := List.Nodup.of_map getTaskId HN
  have hpair : List.Pairwise (fun a b => getTaskId a ≠ getTaskId b) groups :=
    List.pairwise_map.mp HN
  refine nodup_flatMapOf groups _ ?_ ?_
  · intro g hg
    refine List.Nodup.map_on ?_ (hgroups.filter _)
    intro p hp p' hp' heq
    rw [List.mem_filter] at hp hp'
    rw [Prod.mk.injEq] at heq
    exact hinj p hp.1 p' hp'.1 heq.2
  · refine hpair.imp ?_
    intro a b hne x hx hx'
    simp only [List.mem_map, List.mem_filter] at hx hx'
    obtain ⟨p, -, hxa⟩ := hx
    obtain ⟨p', -, hxb⟩ := hx'
    rw [← hxb] at hxa
    rw [Prod.mk.injEq] at hxa
    exact hne hxa.1

theorem mem_parents_iff {edges : List (String × String)} {id x : String} :
    x ∈ (edges.filter fun e => e.1 == id).map (fun e => e.2) ↔
      (id, x) ∈ edges := by
  simp only [List.mem_map, List.mem_filter, beq_iff_eq]
  constructor
  · rintro ⟨e, ⟨he, h1⟩, h2⟩
    have : e = (id, x) := by
      cases e
      simp_all
    rwa [this] at he
  · intro h
    exact ⟨(id, x), ⟨h, rfl⟩, rfl⟩

theorem parents_nodup {edges : List (String × String)} (h : edges.Nodup)
    (id : String) :
    ((edges.filter fun e => e.1 == id).map (fun e => e.2)).Nodup := by
  refine List.Nodup.map_on ?_ (h.filter _)
  intro e he e' he' heq
  rw [List.mem_filter, beq_iff_eq] at he he'
  cases e
  cases e'
  simp_all

theorem inOrder_append_right {α : Type} {l t : List α} {a b : α}
    (h : inOrder l a b) : inOrder (l ++ t) a b := by
  obtain ⟨l1, l2, l3, rfl⟩ := h
  exact ⟨l1, l2, l3 ++ t, by simp⟩

theorem inOrder_mem_left {α : Type} {l : List α} {a b : α}
    (h : inOrder l a b) : a ∈ l := by
  obtain ⟨l1, l2, l3, rfl⟩ := h
  simp

theorem inOrder_mem_right {α : Type} {l : List α} {a b : α}
    (h : inOrder l a b) : b ∈ l := by
  obtain ⟨l1, l2, l3, rfl⟩ := h
  simp

theorem inOrder_map {α β : Type} (f : α → β) {l : List α} {a b : α}
    (h : inOrder l a b) : inOrder (l.map f) (f a) (f b) := by
  obtain ⟨l1, l2, l3, rfl⟩ := h
  exact ⟨l1.map f, l2.map f, l3.map f, by simp⟩

theorem inOrder_filter {α : Type} (p : α → Bool) {l : List α} {a b : α}
    (ha : p a = true) (hb : p b = true) (h : inOrder l a b) :
    inOrder (l.filter p) a b := by
  obtain ⟨l1, l2, l3, rfl⟩ := h
  exact ⟨l1.filter p, l2.filter p, l3.filter p,
    by simp [List.filter_append, List.filter_cons, ha, hb]⟩

theorem nodup_split_unique {α : Type} {b : α} {x1 x2 y1 y2 : List α}
    (hnd : (x1 ++ b :: x2).Nodup) (h : x1 ++ b :: x2 = y1 ++ b :: y2) :
    x1 = y1 ∧ x2 = y2 := by
  induction x1 generalizing y1 with
  | nil =>
    cases y1 with
    | nil =>
      simp only [List.nil_append, List.cons.injEq, true_and] at h
      exact ⟨rfl, h⟩
    | cons y ys =>
      exfalso
      simp only [List.nil_append, List.cons_append, List.cons.injEq] at h
      obtain ⟨rfl, h⟩ := h
      simp only [List.nil_append, List.nodup_cons] at hnd
      exact hnd.1 (by rw [h]; simp)
  | cons x xs ih =>
    cases y1 with
    | nil =>
      exfalso
      simp only [List.cons_append, List.nil_append, List.cons.injEq] at h
      obtain ⟨rfl, h⟩ := h
      simp only [List.cons_append, List.nodup_cons] at hnd
      exact hnd.1 (by simp)
    | cons y ys =>
      simp only [List.cons_append, List.cons.injEq] at h
      obtain ⟨rfl, h⟩ := h
      simp only [List.cons_append, List.nodup_cons] at hnd
      obtain ⟨hx, hy⟩ := ih hnd.2 h
      exact ⟨by rw [hx], hy⟩

theorem inOrder_trans {α : Type} {l : List α} {a b c : α} (hnd : l.Nodup)
    (h1 : inOrder l a b) (h2 : inOrder l b c) : inOrder l a c := by
  obtain ⟨l1, l2, l3, he1⟩ := h1
  obtain ⟨m1, m2, m3, he2⟩ := h2
  have h1' : l = (l1 ++ a :: l2) ++ b :: l3 := by simp [he1]
  have h2' : l = m1 ++ b :: (m2 ++ c :: m3) := by simp [he2]
  have hnd' : ((l1 ++ a :: l2) ++ b :: l3).Nodup := h1' ▸ hnd
  obtain ⟨hx, hy⟩ := nodup_split_unique hnd' (h1'.symm.trans h2')
  refine ⟨l1, l2 ++ b :: m2, m3, ?_⟩
  rw [he1, hy]
  simp

theorem inOrder_not_getLast {α : Type} {l : List α} {a b : α} (hnd : l.Nodup)
    (h : inOrder l a b) (hl : l.getLast? = some a) : False := by
  obtain ⟨l1, l2, l3, rfl⟩ := h
  rw [List.getLast?_append_of_ne_nil l1 (by simp)] at hl
  have h2 : (a :: (l2 ++ b :: l3)).getLast? = (l2 ++ b :: l3).getLast? := by
    have : a :: (l2 ++ b :: l3) = [a] ++ (l2 ++ b :: l3) := by simp
    rw [this, List.getLast?_append_of_ne_nil [a] (by simp)]
  rw [h2] at hl
  have hmem : a ∈ l2 ++ b :: l3 := List.mem_of_mem_getLast? hl
  rw [List.nodup_append] at hnd
  obtain ⟨-, hnd2, -⟩ := hnd
  rw [List.nodup_cons] at hnd2
  exact hnd2.1 hmem

/-! unlockFold: its effect on the counts and the enqueued list. -/
theorem unlockFold_fst (parents : List String) (m : List (String × Int))
    (hnd : parents.Nodup) (x : String) :
    alGet (unlockFold parents m).1 x
      = alGet m x - (if x ∈ parents then 1 else 0) := by
  induction parents generalizing m with
  | nil => simp [unlockFold]
  | cons p ps ih =>
    rw [List.nodup_cons] at hnd
    simp only [unlockFold]
    rw [ih _ hnd.2]
    by_cases hx : x = p
    · subst hx
      rw [alGet_alSet_self, if_neg hnd.1, if_pos (by simp)]
      omega
    · rw [alGet_alSet_ne _ _ _ _ hx]
      by_cases hx' : x ∈ ps
      · rw [if_pos hx', if_pos (by simp [hx'])]
      · rw [if_neg hx', if_neg (by simp [hx, hx'])]

theorem unlockFold_snd (parents : List String) (m : List (String × Int))
    (hnd : parents.Nodup) :
    (unlockFold parents m).2 = parents.filter fun p => alGet m p == 1 := by
  induction parents generalizing m with
  | nil => simp [unlockFold]
  | cons p ps ih =>
    rw [List.nodup_cons] at hnd
    simp only [unlockFold, List.filter_cons]
    rw [ih _ hnd.2]
    have hrest : (ps.filter fun q => alGet (alSet m p (alGet m p - 1)) q == 1)
        = ps.filter fun q => alGet m q == 1 := by
      apply List.filter_congr
      intro q hq
      have hqp : q ≠ p := fun h => hnd.1 (h ▸ hq)
      rw [alGet_alSet_ne _ _ _ _ hqp]
    rw [hrest]
    by_cases hv : alGet m p - 1 = 0
    · have : alGet m p = 1 := by omega
      simp [hv, this]
    · have : ¬(alGet m p = 1) := by omega
      simp [hv, this]

/-! Inversion of the step function. -/
theorem stepFn_start_elim {c : Nat} {groups : List FileGroup}
    {edges : List (String × String)} {s s' : SchedState} {id : String}
    (h : stepFn c groups edges s (Act.start id) = some s') :
    ∃ rest w ws g, s.ready = id :: rest ∧ s.running.length < c ∧
      s.freeQ = w :: ws ∧ findGroup groups id = some g ∧
      s' = startUpd s id rest w ws g := by
  simp only [stepFn] at h
  split at h
  · exact Option.noConfusion h
  · rename_i rid rest heq
    split at h
    · rename_i hc
      split at h
      · rename_i w ws g hfq hfg
        obtain ⟨rfl, hlen⟩ := hc
        injection h with h
        exact ⟨rest, w, ws, g, heq, hlen, hfq, hfg, h.symm⟩
      · exact Option.noConfusion h
    · exact Option.noConfusion h

theorem stepFn_finish_elim {c : Nat} {groups : List FileGroup}
    {edges : List (String × String)} {s s' : SchedState} {id : String}
    {ok : Bool} (h : stepFn c groups edges s (Act.finish id ok) = some s') :
    ∃ w g, s.running.find? (fun t => t.1 == id) = some (id, w) ∧
      findGroup groups id = some g ∧ s' = finishUpd edges s id ok w g := by
  simp only [stepFn] at h
  split at h
  · rename_i tid w g hfind hfg
    have hpred := List.find?_some hfind
    simp only [beq_iff_eq] at hpred
    subst hpred
    injection h with h
    exact ⟨w, g, hfind, hfg, h.symm⟩
  · exact Option.noConfusion h

theorem updateWorkerL_ids (ws : List Worker) (i : Nat) (f : Worker → Worker)
    (hf : ∀ w, (f w).id = w.id) :
    (updateWorkerL ws i f).map Worker.id = ws.map Worker.id := by
  unfold updateWorkerL
  rw [List.map_map]
  apply List.map_congr_left
  intro w _
  simp only [Function.comp_apply]
  split
  · exact hf w
  · rfl

theorem mem_updateWorkerL {ws : List Worker} {i : Nat} {f : Worker → Worker}
    {w' : Worker} (h : w' ∈ updateWorkerL ws i f) :
    ∃ w0 ∈ ws, w' = if w0.id == i then f w0 else w0 := by
  unfold updateWorkerL at h
  rw [List.mem_map] at h
  obtain ⟨w0, hw0, he⟩ := h
  exact ⟨w0, hw0, he.symm⟩

theorem inv_init (c : Nat) (groups : List FileGroup)
    (HN : (groups.map getTaskId).Nodup) :
    RunInv c groups (initState c groups) := by
  have hcount : ∀ x, alGet (initState c groups).inDeg x =
      (((buildEdges groups).filter fun e => e.2 == x).length : Int) := by
    intro x
    show alGet (initInDeg (groups.map getTaskId) (buildEdges groups)) x = _
    rw [alGet_initInDeg]
  refine ⟨?_, ?_, ?_, ?_, ?_, ?_, ?_, ?_, ?_, ?_, ?_, ?_, ?_, ?_, ?_⟩
  · intro id hid
    exact List.mem_of_mem_filter hid
  · intro id hid
    simp [initState] at hid
  · intro id hid
    simp [initState] at hid
  · show ((groups.map getTaskId).filter _ ++ ([] ++ [])).Nodup
    simp only [List.append_nil]
    exact HN.filter _
  · intro x
    rw [hcount x]
    show _ = (((buildEdges groups).filter fun e =>
      e.2 == x && !((([] : List (String × Bool)).map Prod.fst).contains e.1)).length : Int)
    simp
  · intro e he hmem
    exfalso
    rcases hmem with hmem | hmem | hmem
    · have h0 := List.of_mem_filter hmem
      rw [beq_iff_eq] at h0
      have hc : alGet (initInDeg (List.map getTaskId groups) (buildEdges groups)) e.2
          = (((buildEdges groups).filter fun e' => e'.2 == e.2).length : Int) :=
        hcount e.2
      rw [h0] at hc
      have hmm : e ∈ (buildEdges groups).filter fun e' => e'.2 == e.2 := by
        rw [List.mem_filter]
        exact ⟨he, by simp⟩
      have hpos : 0 < ((buildEdges groups).filter fun e' => e'.2 == e.2).length :=
        List.length_pos.mpr (fun hnil => by rw [hnil] at hmm; simp at hmm)
      omega
    · simp [initState] at hmem
    · simp [initState] at hmem
  · intro e he hmem
    simp [initState] at hmem
  · intro id hid h0
    left
    show id ∈ (groups.map getTaskId).filter _
    rw [List.mem_filter]
    refine ⟨hid, ?_⟩
    show (alGet (initInDeg (groups.map getTaskId) (buildEdges groups)) id == 0) = true
    rw [beq_iff_eq]
    exact h0
  · show List.map Worker.id ((List.range c).map fun i => mkIdleWorker (i + 1)) = _
    rw [List.map_map]
    rfl
  · show List.Perm ((List.range c).map (· + 1) ++ List.map Prod.snd []) _
    simp
  · intro w hw _
    simp only [initState, List.mem_map] at hw
    obtain ⟨i, -, rfl⟩ := hw
    rfl
  · intro w hw hmem
    simp [initState] at hmem
  · rfl
  · rfl
  · intro p
    simp [initState]

theorem inv_step_start {c : Nat} {groups : List FileGroup} {s s' : SchedState}
    {id : String} (inv : RunInv c groups s)
    (h : stepFn c groups (buildEdges groups) s (Act.start id) = some s') :
    RunInv c groups s' := by
  obtain ⟨rest, w, ws, g, hr, hlen, hf, hg, rfl⟩ := stepFn_start_elim h
  have hidmem : id ∈ groups.map getTaskId :=
    inv.ready_mem id (by rw [hr]; simp)
  simp only [startUpd]
  refine ⟨?_, ?_, ?_, ?_, ?_, ?_, ?_, ?_, ?_, ?_, ?_, ?_, ?_, ?_, ?_⟩
  · intro x hx
    exact inv.ready_mem x (by rw [hr]; simp [hx])
  · intro x hx
    simp only [List.map_append, List.map_cons, List.map_nil,
      List.mem_append, List.mem_singleton] at hx
    rcases hx with hx | hx
    · exact inv.running_mem x hx
    · exact hx ▸ hidmem
  · exact inv.done_mem
  · simp only [List.map_append, List.map_cons, List.map_nil]
    have hold : (id ::
        (rest ++ (s.running.map Prod.fst ++ s.done.map Prod.fst))).Nodup := by
      have := inv.nodupIds
      rw [hr] at this
      simpa using this
    have hperm : List.Perm
        (id :: (rest ++ (s.running.map Prod.fst ++ s.done.map Prod.fst)))
        (rest ++ ((s.running.map Prod.fst ++ [id]) ++ s.done.map Prod.fst)) := by
      have h1 : rest ++ ((s.running.map Prod.fst ++ [id]) ++ s.done.map Prod.fst)
          = (rest ++ s.running.map Prod.fst) ++ (id :: s.done.map Prod.fst) := by
        simp
      have h2 : id :: (rest ++ (s.running.map Prod.fst ++ s.done.map Prod.fst))
          = id :: ((rest ++ s.running.map Prod.fst) ++ s.done.map Prod.fst) := by
        simp
      rw [h1, h2]
      exact List.perm_middle.symm
    exact hperm.nodup hold
  · exact inv.count
  · intro e he hmem
    refine inv.edge_done e he ?_
    simp only [List.map_append, List.map_cons, List.map_nil,
      List.mem_append, List.mem_singleton] at hmem
    rcases hmem with hm | (hm | hm) | hm
    · exact Or.inl (by rw [hr]; simp [hm])
    · exact Or.inr (Or.inl hm)
    · exact Or.inl (by rw [hr, hm]; simp)
    · exact Or.inr (Or.inr hm)
  · exact inv.edge_order
  · intro x hx h0
    rcases inv.zero_placed x hx h0 with hm | hm | hm
    · rw [hr] at hm
      rcases List.mem_cons.mp hm with hm | hm
      · right
        left
        simp [hm]
      · left
        exact hm
    · right
      left
      simp [hm]
    · right
      right
      exact hm
  · refine Eq.trans (updateWorkerL_ids s.workers w _ fun wk => rfl) inv.workers_ids
  · simp only [List.map_append, List.map_cons, List.map_nil]
    have hold : List.Perm ((w :: ws) ++ s.running.map Prod.snd)
        ((List.range c).map (· + 1)) := by
      rw [← hf]
      exact inv.free_perm
    refine List.Perm.trans ?_ hold
    have h1 : List.Perm (s.running.map Prod.snd ++ [w])
        (w :: s.running.map Prod.snd) :=
      List.perm_append_singleton w _
    refine List.Perm.trans (List.Perm.append_left ws h1) ?_
    have h2 : (w :: ws) ++ s.running.map Prod.snd
        = w :: (ws ++ s.running.map Prod.snd) := by simp
    rw [h2]
    exact List.perm_middle
  · intro w' hw' hnm
    simp only [List.map_append, List.map_cons, List.map_nil,
      List.mem_append, List.mem_singleton] at hnm
    push_neg at hnm
    obtain ⟨w0, hw0, he⟩ := mem_updateWorkerL hw'
    by_cases hcase : w0.id = w
    · exfalso
      rw [if_pos (beq_iff_eq.mpr hcase)] at he
      apply hnm.2
      rw [he]
      exact hcase
    · rw [if_neg (by simp [hcase])] at he
      rw [he] at hnm ⊢
      exact inv.not_held_idle w0 hw0 hnm.1
  · intro w' hw' hmem
    simp only [List.map_append, List.map_cons, List.map_nil,
      List.mem_append, List.mem_singleton] at hmem
    obtain ⟨w0, hw0, he⟩ := mem_updateWorkerL hw'
    by_cases hcase : w0.id = w
    · rw [if_pos (beq_iff_eq.mpr hcase)] at he
      rw [he]
    · rw [if_neg (by simp [hcase])] at he
      rw [he] at hmem ⊢
      rcases hmem with hm | hm
      · exact inv.held_working w0 hw0 hm
      · exact absurd hm hcase
  · exact inv.completed_sum
  · exact inv.pushes_eq
  · exact inv.created_iff

theorem perm_cons_filter_of_mem {l : List (String × Nat)} {id : String} {w : Nat}
    (hnd : (l.map Prod.fst).Nodup) (hm : (id, w) ∈ l) :
    List.Perm l ((id, w) :: l.filter fun t => t.1 != id) := by
  induction l with
  | nil => cases hm
  | cons a t ih =>
    rw [List.map_cons, List.nodup_cons] at hnd
    rcases List.mem_cons.mp hm with rfl | hmt
    · have hfilter : t.filter (fun t' => t'.1 != id) = t := by
        refine List.filter_eq_self.mpr ?_
        intro x hx
        have hne : x.1 ≠ (id, w).1 :=
          fun he => hnd.1 (he ▸ List.mem_map_of_mem Prod.fst hx)
        simpa using hne
      rw [List.filter_cons, if_neg (by simp), hfilter]
    · have ha : a.1 ≠ id :=
        fun he => hnd.1 (he ▸ List.mem_map_of_mem Prod.fst hmt)
      rw [List.filter_cons, if_pos (by simpa using ha)]
      exact ((ih hnd.2 hmt).cons a).trans (List.Perm.swap _ _ _)

theorem inv_placed_zero {c : Nat} {groups : List FileGroup} {s : SchedState}
    (inv : RunInv c groups s) {x : String}
    (hx : x ∈ s.ready ∨ x ∈ s.running.map Prod.fst ∨ x ∈ s.done.map Prod.fst) :
    alGet s.inDeg x = 0 := by
  rw [inv.count x]
  have hempty : ((buildEdges groups).filter fun e =>
      e.2 == x && !((s.done.map Prod.fst).contains e.1)) = [] := by
    rw [List.filter_eq_nil_iff]
    intro e he hcond
    rw [Bool.and_eq_true, beq_iff_eq] at hcond
    obtain ⟨h2, h1⟩ := hcond
    have hdone : e.1 ∈ s.done.map Prod.fst :=
      inv.edge_done e he (h2 ▸ hx)
    simp [hdone] at h1
  rw [hempty]
  simp

theorem finishUpd_inDeg (edges : List (String × String)) (s : SchedState)
    (id : String) (ok : Bool) (w : Nat) (g : FileGroup) :
    (finishUpd edges s id ok w g).inDeg =
      (unlockFold ((edges.filter fun e => e.1 == id).map fun e => e.2) s.inDeg).1 :=
  rfl

theorem finishUpd_ready (edges : List (String × String)) (s : SchedState)
    (id : String) (ok : Bool) (w : Nat) (g : FileGroup) :
    (finishUpd edges s id ok w g).ready =
      s.ready ++ (unlockFold ((edges.filter fun e => e.1 == id).map fun e => e.2) s.inDeg).2 :=
  rfl

theorem finishUpd_running (edges : List (String × String)) (s : SchedState)
    (id : String) (ok : Bool) (w : Nat) (g : FileGroup) :
    (finishUpd edges s id ok w g).running =
      s.running.filter fun t => t.1 != id :=
  rfl

theorem finishUpd_done (edges : List (String × String)) (s : SchedState)
    (id : String) (ok : Bool) (w : Nat) (g : FileGroup) :
    (finishUpd edges s id ok w g).done = s.done ++ [(id, ok)] :=
  rfl

theorem finishUpd_pushes (edges : List (String × String)) (s : SchedState)
    (id : String) (ok : Bool) (w : Nat) (g : FileGroup) :
    (finishUpd edges s id ok w g).pushes =
      if ok then s.pushes ++ [(g.language, artifactPath g)] else s.pushes :=
  rfl

theorem finishUpd_createdFiles (edges : List (String × String)) (s : SchedState)
    (id : String) (ok : Bool) (w : Nat) (g : FileGroup) :
    (finishUpd edges s id ok w g).createdFiles =
      if ok then
        if s.createdFiles.contains (artifactPath g) then s.createdFiles
        else s.createdFiles ++ [artifactPath g]
      else s.createdFiles :=
  rfl

theorem finishUpd_workers (edges : List (String × String)) (s : SchedState)
    (id : String) (ok : Bool) (w : Nat) (g : FileGroup) :
    (finishUpd edges s id ok w g).workers =
      updateWorkerL s.workers w fun wk =>
        { wk with
          status := WStatus.idle
          language := none
          directory := none
          error := none
          progress := none } :=
  rfl

theorem finishUpd_freeQ (edges : List (String × String)) (s : SchedState)
    (id : String) (ok : Bool) (w : Nat) (g : FileGroup) :
    (finishUpd edges s id ok w g).freeQ = s.freeQ ++ [w] :=
  rfl

theorem finishUpd_completed (edges : List (String × String)) (s : SchedState)
    (id : String) (ok : Bool) (w : Nat) (g : FileGroup) :
    (finishUpd edges s id ok w g).completed = s.completed + g.files.length :=
  rfl

theorem finishUpd_progressLog (edges : List (String × String)) (s : SchedState)
    (id : String) (ok : Bool) (w : Nat) (g : FileGroup) :
    (finishUpd edges s id ok w g).progressLog =
      s.progressLog ++ [s.completed + g.files.length] :=
  rfl

theorem inv_step_finish {c : Nat} {groups : List FileGroup} {s s' : SchedState}
    {id : String} {ok : Bool} (HN : (groups.map getTaskId).Nodup)
    (inv : RunInv c groups s)
    (h : stepFn c groups (buildEdges groups) s (Act.finish id ok) = some s') :
    RunInv c groups s' := by
  obtain ⟨w, g, hfind, hg, rfl⟩ := stepFn_finish_elim h
  have hmem_run : (id, w) ∈ s.running := List.mem_of_find?_eq_some hfind
  have hidR : id ∈ s.running.map Prod.fst := List.mem_map_of_mem Prod.fst hmem_run
  have hwW : w ∈ s.running.map Prod.snd := List.mem_map_of_mem Prod.snd hmem_run
  have hidmem : id ∈ groups.map getTaskId := inv.running_mem id hidR
  have hedN : (buildEdges groups).Nodup := buildEdges_nodup HN
  have hparN : (((buildEdges groups).filter fun e => e.1 == id).map fun e => e.2).Nodup :=
    parents_nodup hedN id
  have nd := inv.nodupIds
  rw [List.nodup_append] at nd
  obtain ⟨hAnd, hRD, hdisjA⟩ := nd
  rw [List.nodup_append] at hRD
  obtain ⟨hRnd, hDnd, hdisjRD⟩ := hRD
  have hidnD : id ∉ s.done.map Prod.fst := fun hd => hdisjRD hidR hd
  have hidnA : id ∉ s.ready := fun ha => hdisjA ha (by simp [hidR])
  have hallN : ((List.range c).map (· + 1)).Nodup := by
    refine List.Nodup.map_on ?_ (List.nodup_range c)
    intro x _ y _ hxy
    omega
  have hfreeWnd : (s.freeQ ++ s.running.map Prod.snd).Nodup :=
    inv.free_perm.symm.nodup hallN
  rw [List.nodup_append] at hfreeWnd
  obtain ⟨hFnd, hWnd, hdisjFW⟩ := hfreeWnd
  have hRperm : List.Perm s.running ((id, w) :: s.running.filter fun t => t.1 != id) :=
    perm_cons_filter_of_mem hRnd hmem_run
  have hRmapfst : (s.running.filter fun t => t.1 != id).map Prod.fst
      = (s.running.map Prod.fst).filter fun x => x != id :=
    map_filter_comm Prod.fst (fun x => x != id) s.running
  have hUr : (unlockFold (((buildEdges groups).filter fun e => e.1 == id).map fun e => e.2) s.inDeg).2
      = (((buildEdges groups).filter fun e => e.1 == id).map fun e => e.2).filter
          fun p => alGet s.inDeg p == 1 :=
    unlockFold_snd _ _ hparN
  have hnewReady_one : ∀ x ∈ (unlockFold (((buildEdges groups).filter fun e => e.1 == id).map fun e => e.2) s.inDeg).2,
      alGet s.inDeg x = 1 ∧ (id, x) ∈ buildEdges groups := by
    intro x hx
    rw [hUr] at hx
    have h1 := List.of_mem_filter hx
    simp only [beq_iff_eq] at h1
    refine ⟨h1, ?_⟩
    exact mem_parents_iff.mp (List.mem_of_mem_filter hx)
  have hnewReady_not_placed : ∀ x ∈ (unlockFold (((buildEdges groups).filter fun e => e.1 == id).map fun e => e.2) s.inDeg).2,
      x ∉ s.ready ∧ x ∉ s.running.map Prod.fst ∧ x ∉ s.done.map Prod.fst := by
    intro x hx
    obtain ⟨h1, -⟩ := hnewReady_one x hx
    refine ⟨?_, ?_, ?_⟩ <;> intro hp
    · rw [inv_placed_zero inv (Or.inl hp)] at h1
      cases h1
    · rw [inv_placed_zero inv (Or.inr (Or.inl hp))] at h1
      cases h1
    · rw [inv_placed_zero inv (Or.inr (Or.inr hp))] at h1
      cases h1
  have hnewReady_mem : ∀ x ∈ (unlockFold (((buildEdges groups).filter fun e => e.1 == id).map fun e => e.2) s.inDeg).2,
      x ∈ groups.map getTaskId := by
    intro x hx
    obtain ⟨-, h2⟩ := hnewReady_one x hx
    rcases mem_buildEdges.mp h2 with ⟨g1, -, p1, hp1, -, hx2, -⟩
    exact hx2 ▸ List.mem_map_of_mem getTaskId hp1
  have hnewReady_nd : (unlockFold (((buildEdges groups).filter fun e => e.1 == id).map fun e => e.2) s.inDeg).2.Nodup := by
    rw [hUr]
    exact hparN.filter _
  refine ⟨?_, ?_, ?_, ?_, ?_, ?_, ?_, ?_, ?_, ?_, ?_, ?_, ?_, ?_, ?_⟩
  · rw [finishUpd_ready]
    intro x hx
    rcases List.mem_append.mp hx with hx | hx
    · exact inv.ready_mem x hx
    · exact hnewReady_mem x hx
  · rw [finishUpd_running, hRmapfst]
    intro x hx
    exact inv.running_mem x (List.mem_of_mem_filter hx)
  · rw [finishUpd_done]
    intro x hx
    simp only [List.map_append, List.map_cons, List.map_nil, List.mem_append,
      List.mem_singleton] at hx
    rcases hx with hx | hx
    · exact inv.done_mem x hx
    · exact hx ▸ hidmem
  · rw [finishUpd_ready, finishUpd_running, finishUpd_done, hRmapfst]
    simp only [List.map_append, List.map_cons, List.map_nil]
    rw [List.nodup_append]
    refine ⟨?_, ?_, ?_⟩
    · rw [List.nodup_append]
      refine ⟨hAnd, hnewReady_nd, ?_⟩
      intro x hx hx'
      exact (hnewReady_not_placed x hx').1 hx
    · rw [List.nodup_append]
      refine ⟨hRnd.filter _, ?_, ?_⟩
      · rw [List.nodup_append]
        refine ⟨hDnd, List.nodup_singleton id, ?_⟩
        intro x hx hx'
        rw [List.mem_singleton] at hx'
        exact hidnD (hx' ▸ hx)
      · intro x hx hx'
        have hxR := List.mem_of_mem_filter hx
        have hxne : x ≠ id := by
          have := List.of_mem_filter hx
          simpa using this
        rcases List.mem_append.mp hx' with hx' | hx'
        · exact hdisjRD hxR hx'
        · rw [List.mem_singleton] at hx'
          exact hxne hx'
    · intro x hx hx'
      rcases List.mem_append.mp hx with hx | hx
      · rcases List.mem_append.mp hx' with hx' | hx'
        · exact hdisjA hx (by simp [List.mem_of_mem_filter hx'])
        · rcases List.mem_append.mp hx' with hx' | hx'
          · exact hdisjA hx (by simp [hx'])
          · rw [List.mem_singleton] at hx'
            exact hidnA (hx' ▸ hx)
      · obtain ⟨-, h2, h3⟩ := hnewReady_not_placed x hx
        rcases List.mem_append.mp hx' with hx' | hx'
        · exact h2 (List.mem_of_mem_filter hx')
        · rcases List.mem_append.mp hx' with hx' | hx'
          · exact h3 hx'
          · rw [List.mem_singleton] at hx'
            obtain ⟨h1, -⟩ := hnewReady_one x hx
            rw [hx'] at h1
            rw [inv_placed_zero inv (Or.inr (Or.inl hidR))] at h1
            cases h1
  · intro x
    rw [finishUpd_inDeg, finishUpd_done]
    rw [unlockFold_fst _ _ hparN x, inv.count x]
    have hmapD : (s.done ++ [(id, ok)]).map Prod.fst = s.done.map Prod.fst ++ [id] := by
      simp
    rw [hmapD]
    have hfilter_eq : ((buildEdges groups).filter fun e =>
        e.2 == x && !((s.done.map Prod.fst ++ [id]).contains e.1))
        = (buildEdges groups).filter fun e =>
          (e.2 == x && !((s.done.map Prod.fst).contains e.1)) && !(e.1 == id) := by
      apply List.filter_congr
      intro e he
      by_cases h1 : e.1 ∈ s.done.map Prod.fst <;> by_cases h2 : e.1 = id <;>
        simp [h1, h2]
    rw [hfilter_eq]
    have hsplit := length_filter_split (buildEdges groups)
      (fun e => e.2 == x && !((s.done.map Prod.fst).contains e.1))
      (fun e => e.1 == id)
    have hPQ : ((buildEdges groups).filter fun e =>
        (e.2 == x && !((s.done.map Prod.fst).contains e.1)) && e.1 == id)
        = (buildEdges groups).filter fun e => decide (e = (id, x)) := by
      apply List.filter_congr
      intro e he
      cases e with
      | mk a b =>
        by_cases h2 : a = id
        · subst h2
          by_cases h3 : b = x
          · subst h3
            simp [hidnD]
          · simp [h3]
        · simp [h2]
    rw [hPQ, length_filter_eqd_of_nodup _ hedN (id, x)] at hsplit
    by_cases hmem : (id, x) ∈ buildEdges groups
    · rw [if_pos (mem_parents_iff.mpr hmem)]
      rw [if_pos hmem] at hsplit
      omega
    · rw [if_neg (fun hp => hmem (mem_parents_iff.mp hp))]
      rw [if_neg hmem] at hsplit
      omega
  · intro e he hmem
    rw [finishUpd_ready, finishUpd_running, finishUpd_done, hRmapfst] at hmem
    rw [finishUpd_done]
    simp only [List.map_append, List.map_cons, List.map_nil, List.mem_append,
      List.mem_singleton] at hmem ⊢
    rcases hmem with (hm | hm) | hm | (hm | hm)
    · exact Or.inl (inv.edge_done e he (Or.inl hm))
    · obtain ⟨h1, h2⟩ := hnewReady_one e.2 hm
      by_cases hD : e.1 ∈ s.done.map Prod.fst
      · exact Or.inl hD
      · have hcount := inv.count e.2
        rw [h1] at hcount
        have hlen : ((buildEdges groups).filter fun e' =>
            e'.2 == e.2 && !((s.done.map Prod.fst).contains e'.1)).length = 1 := by
          omega
        obtain ⟨y, hFy⟩ := List.length_eq_one.mp hlen
        have hy : (id, e.2) ∈ (buildEdges groups).filter fun e' =>
            e'.2 == e.2 && !((s.done.map Prod.fst).contains e'.1) := by
          rw [List.mem_filter]
          exact ⟨h2, by simp [hidnD]⟩
        have he' : e ∈ (buildEdges groups).filter fun e' =>
            e'.2 == e.2 && !((s.done.map Prod.fst).contains e'.1) := by
          rw [List.mem_filter]
          exact ⟨he, by simp [hD]⟩
        rw [hFy, List.mem_singleton] at hy he'
        right
        rw [he', ← hy]
    · exact Or.inl (inv.edge_done e he (Or.inr (Or.inl (List.mem_of_mem_filter hm))))
    · exact Or.inl (inv.edge_done e he (Or.inr (Or.inr hm)))
    · exact Or.inl (inv.edge_done e he (Or.inr (Or.inl (hm ▸ hidR))))
  · intro e he hmem
    rw [finishUpd_done] at hmem ⊢
    simp only [List.map_append, List.map_cons, List.map_nil, List.mem_append,
      List.mem_singleton] at hmem
    simp only [List.map_append, List.map_cons, List.map_nil]
    rcases hmem with hm | hm
    · exact inOrder_append_right (inv.edge_order e he hm)
    · have hdone : e.1 ∈ s.done.map Prod.fst :=
        inv.edge_done e he (Or.inr (Or.inl (hm ▸ hidR)))
      obtain ⟨d1, d2, hD⟩ := List.mem_iff_append.mp hdone
      refine ⟨d1, d2, [], ?_⟩
      rw [hD, hm]
      simp
  · intro x hx h0
    rw [finishUpd_inDeg] at h0
    rw [finishUpd_ready, finishUpd_running, finishUpd_done, hRmapfst]
    rw [unlockFold_fst _ _ hparN x] at h0
    simp only [List.map_append, List.map_cons, List.map_nil, List.mem_append,
      List.mem_singleton]
    by_cases hp : x ∈ ((buildEdges groups).filter fun e => e.1 == id).map fun e => e.2
    · rw [if_pos hp] at h0
      have h1 : alGet s.inDeg x = 1 := by omega
      left
      right
      rw [hUr]
      rw [List.mem_filter]
      exact ⟨hp, by simp [h1]⟩
    · rw [if_neg hp] at h0
      simp only [sub_zero] at h0
      rcases inv.zero_placed x hx h0 with hm | hm | hm
      · exact Or.inl (Or.inl hm)
      · by_cases hxid : x = id
        · exact Or.inr (Or.inr (Or.inr hxid))
        · refine Or.inr (Or.inl ?_)
          rw [List.mem_filter]
          exact ⟨hm, by simpa using hxid⟩
      · exact Or.inr (Or.inr (Or.inl hm))
  · rw [finishUpd_workers]
    refine Eq.trans (updateWorkerL_ids s.workers w _ fun wk => rfl) inv.workers_ids
  · rw [finishUpd_freeQ, finishUpd_running]
    have hWperm : List.Perm (s.running.map Prod.snd)
        (w :: (s.running.filter fun t => t.1 != id).map Prod.snd) :=
      hRperm.map Prod.snd
    have h1 : s.freeQ ++ [w] ++ (s.running.filter fun t => t.1 != id).map Prod.snd
        = s.freeQ ++ (w :: (s.running.filter fun t => t.1 != id).map Prod.snd) := by
      simp
    rw [h1]
    refine List.Perm.trans (List.Perm.append_left s.freeQ hWperm.symm) inv.free_perm
  · rw [finishUpd_workers, finishUpd_running]
    intro w' hw' hnm
    obtain ⟨w0, hw0, he⟩ := mem_updateWorkerL hw'
    by_cases hcase : w0.id = w
    · rw [if_pos (beq_iff_eq.mpr hcase)] at he
      rw [he]
      rfl
    · rw [if_neg (by simp [hcase])] at he
      rw [he] at hnm ⊢
      refine inv.not_held_idle w0 hw0 ?_
      intro hmem
      have := (hRperm.map Prod.snd).mem_iff.mp hmem
      rcases List.mem_cons.mp this with h1 | h1
      · exact hcase h1
      · exact hnm h1
  · rw [finishUpd_workers, finishUpd_running]
    intro w' hw' hmem
    obtain ⟨w0, hw0, he⟩ := mem_updateWorkerL hw'
    by_cases hcase : w0.id = w
    · exfalso
      have hWnd' : (w :: (s.running.filter fun t => t.1 != id).map Prod.snd).Nodup :=
        (hRperm.map Prod.snd).nodup hWnd
      rw [List.nodup_cons] at hWnd'
      rw [if_pos (beq_iff_eq.mpr hcase)] at he
      have : w'.id = w := by rw [he, hcase]
      exact hWnd'.1 (this ▸ hmem)
    · rw [if_neg (by simp [hcase])] at he
      rw [he] at hmem ⊢
      refine inv.held_working w0 hw0 ?_
      exact (hRperm.map Prod.snd).mem_iff.mpr (List.mem_cons_of_mem w hmem)
  · rw [finishUpd_completed, finishUpd_done]
    rw [inv.completed_sum]
    simp only [List.map_append, List.map_cons, List.map_nil, List.sum_append]
    have : filesLenOf groups id = g.files.length := by
      unfold filesLenOf
      rw [hg]
    simp [this]
  · rw [finishUpd_pushes, finishUpd_done]
    rw [inv.pushes_eq]
    rw [List.filter_append]
    have hone : ([(id, ok)].filter fun d => d.2) = if ok then [(id, ok)] else [] := by
      cases ok <;> simp
    rw [hone]
    have hpush : pushOf groups id = (g.language, artifactPath g) := by
      unfold pushOf
      rw [hg]
    cases ok <;> simp [hpush]
  · intro p
    rw [finishUpd_createdFiles, finishUpd_pushes]
    cases ok with
    | false =>
      simp only [if_neg (by simp : ¬(false = true))]
      exact inv.created_iff p
    | true =>
      simp only [if_pos rfl]
      by_cases hc : s.createdFiles.contains (artifactPath g)
      · rw [if_pos hc]
        have hcmem : artifactPath g ∈ s.createdFiles := by
          simpa using hc
        constructor
        · intro hp
          obtain ⟨lp, hlp, hlp2⟩ := (inv.created_iff p).mp hp
          exact ⟨lp, by simp [hlp], hlp2⟩
        · intro hp
          obtain ⟨lp, hlp, hlp2⟩ := hp
          rcases List.mem_append.mp hlp with h1 | h1
          · exact (inv.created_iff p).mpr ⟨lp, h1, hlp2⟩
          · rw [List.mem_singleton] at h1
            rw [h1] at hlp2
            simp at hlp2
            rw [← hlp2]
            exact hcmem
      · rw [if_neg hc]
        constructor
        · intro hp
          rcases List.mem_append.mp hp with h1 | h1
          · obtain ⟨lp, hlp, hlp2⟩ := (inv.created_iff p).mp h1
            exact ⟨lp, by simp [hlp], hlp2⟩
          · rw [List.mem_singleton] at h1
            exact ⟨(g.language, artifactPath g), by simp, h1.symm⟩
        · intro hp
          obtain ⟨lp, hlp, hlp2⟩ := hp
          rcases List.mem_append.mp hlp with h1 | h1
          · exact List.mem_append.mpr (Or.inl ((inv.created_iff p).mpr ⟨lp, h1, hlp2⟩))
          · rw [List.mem_singleton] at h1
            rw [h1] at hlp2
            simp at hlp2
            rw [← hlp2]
            simp

theorem inv_step {c : Nat} {groups : List FileGroup} {s s' : SchedState}
    {a : Act} (HN : (groups.map getTaskId).Nodup) (inv : RunInv c groups s)
    (h : stepFn c groups (buildEdges groups) s a = some s') :
    RunInv c groups s' := by
  cases a with
  | start id => exact inv_step_start inv h
  | finish id ok => exact inv_step_finish HN inv h

theorem inv_stepsFrom {c : Nat} {groups : List FileGroup}
    (HN : (groups.map getTaskId).Nodup) :
    ∀ (acts : List Act) (s0 s : SchedState), RunInv c groups s0 →
      stepsFrom c groups (buildEdges groups) s0 acts = some s →
      RunInv c groups s := by
  intro acts
  induction acts with
  | nil =>
    intro s0 s inv h
    simp only [stepsFrom, Option.some.injEq] at h
    exact h ▸ inv
  | cons a as ih =>
    intro s0 s inv h
    simp only [stepsFrom] at h
    split at h
    · exact Option.noConfusion h
    · rename_i s1 hs1
      exact ih s1 s (inv_step HN inv hs1) h

/-- Every state reached by a run from the initial state satisfies the
invariant. -/
theorem inv_runActs {c : Nat} {groups : List FileGroup} {acts : List Act}
    {s : SchedState} (HN : (groups.map getTaskId).Nodup)
    (h : runActs c groups acts = some s) : RunInv c groups s :=
  inv_stepsFrom HN acts (initState c groups) s (inv_init c groups HN) h

/-- A group whose directory is longest among a nonempty list. -/
theorem exists_max_dir (l : List FileGroup) (h : l ≠ []) :
    ∃ m ∈ l, ∀ x ∈ l, x.directory.data.length ≤ m.directory.data.length := by
  induction l with
  | nil => exact absurd rfl h
  | cons a t ih =>
    cases t with
    | nil =>
      refine ⟨a, by simp, ?_⟩
      intro x hx
      rw [List.mem_singleton] at hx
      rw [hx]
    | cons b u =>
      obtain ⟨m, hm, hmax⟩ := ih (by simp)
      by_cases hc : a.directory.data.length ≤ m.directory.data.length
      · refine ⟨m, by simp [hm], ?_⟩
        intro x hx
        rcases List.mem_cons.mp hx with rfl | hx
        · exact hc
        · exact hmax x hx
      · refine ⟨a, by simp, ?_⟩
        intro x hx
        rcases List.mem_cons.mp hx with rfl | hx
        · exact le_refl _
        · exact le_trans (hmax x hx) (by omega)

/-- If nothing is ready and nothing is in flight, every task has completed:
the scheduler never deadlocks, whatever mix of successes and failures
occurred. -/
theorem settled_all_done {c : Nat} {groups : List FileGroup} {s : SchedState}
    (HN : (groups.map getTaskId).Nodup) (inv : RunInv c groups s)
    (hready : s.ready = []) (hrun : s.running = []) :
    ∀ id ∈ groups.map getTaskId, id ∈ s.done.map Prod.fst := by
  by_contra hcon
  push_neg at hcon
  obtain ⟨id0, hid0, hnd0⟩ := hcon
  have hne : groups.filter (fun g => !((s.done.map Prod.fst).contains (getTaskId g))) ≠ [] := by
    intro hnil
    rw [List.mem_map] at hid0
    obtain ⟨g0, hg0, hgid⟩ := hid0
    have : g0 ∈ groups.filter (fun g => !((s.done.map Prod.fst).contains (getTaskId g))) := by
      rw [List.mem_filter]
      refine ⟨hg0, ?_⟩
      simp [hgid, hnd0]
    rw [hnil] at this
    cases this
  obtain ⟨m, hm, hmax⟩ := exists_max_dir _ hne
  rw [List.mem_filter] at hm
  obtain ⟨hmg, hmnd⟩ := hm
  have hmnd' : getTaskId m ∉ s.done.map Prod.fst := by
    intro hd
    simp [hd] at hmnd
  have hzero : alGet s.inDeg (getTaskId m) = 0 := by
    rw [inv.count]
    have hempty : ((buildEdges groups).filter fun e =>
        e.2 == getTaskId m && !((s.done.map Prod.fst).contains e.1)) = [] := by
      rw [List.filter_eq_nil_iff]
      intro e he hcond
      rw [Bool.and_eq_true, beq_iff_eq] at hcond
      obtain ⟨h2, h1⟩ := hcond
      rcases mem_buildEdges.mp he with ⟨gc, hgc, p, hp, hx1, hx2, hlang, hchild, -⟩
      have hpm : p = m := idInj_of_nodup HN p hp m hmg (hx2.symm.trans h2)
      subst hpm
      have hgcnd : getTaskId gc ∉ s.done.map Prod.fst := by
        intro hd
        rw [← hx1] at hd
        simp [hd] at h1
      have hgcf : gc ∈ groups.filter
          (fun g => !((s.done.map Prod.fst).contains (getTaskId g))) := by
        rw [List.mem_filter]
        refine ⟨hgc, ?_⟩
        simp [hgcnd]
      have hlen := hmax gc hgcf
      have := isChildOf_length hchild
      omega
    rw [hempty]
    simp
  rcases inv.zero_placed (getTaskId m) (List.mem_map_of_mem getTaskId hmg) hzero
    with hp | hp | hp
  · rw [hready] at hp
    cases hp
  · rw [hrun] at hp
    cases hp
  · exact hmnd' hp

/-- From any reachable state that has not settled, some transition is
enabled (with at least one worker the scheduler cannot get stuck). -/
theorem progress_step {c : Nat} {groups : List FileGroup} {s : SchedState}
    (hc : 1 ≤ c) (inv : RunInv c groups s)
    (hns : ¬(s.ready = [] ∧ s.running = [])) :
    ∃ a s', stepFn c groups (buildEdges groups) s a = some s' := by
  cases hrun : s.running with
  | cons t rest =>
    obtain ⟨tid, w⟩ := t
    have hfind : s.running.find? (fun t => t.1 == tid) = some (tid, w) := by
      rw [hrun]
      simp [List.find?_cons]
    have hidmem : tid ∈ groups.map getTaskId :=
      inv.running_mem tid (by rw [hrun]; simp)
    obtain ⟨g, hg⟩ := findGroup_isSome hidmem
    refine ⟨Act.finish tid true, finishUpd (buildEdges groups) s tid true w g, ?_⟩
    simp only [stepFn, hfind, hg]
  | nil =>
    cases hready : s.ready with
    | nil => exact absurd ⟨hready, hrun⟩ hns
    | cons rid rest =>
      have hidmem : rid ∈ groups.map getTaskId :=
        inv.ready_mem rid (by rw [hready]; simp)
      obtain ⟨g, hg⟩ := findGroup_isSome hidmem
      have hflen : s.freeQ.length = c := by
        have := inv.free_perm.length_eq
        rw [hrun] at this
        simpa using this
      cases hfq : s.freeQ with
      | nil =>
        rw [hfq] at hflen
        simp at hflen
        omega
      | cons w ws =>
        refine ⟨Act.start rid, startUpd s rid rest w ws g, ?_⟩
        simp only [stepFn, hready]
        rw [if_pos ⟨by simp, by rw [hrun]; simpa using hc⟩]
        simp [hfq, hg]

/-! Ancestor chains: a strict same-language directory ancestor is reachable
through dependency edges, and completions respect that order. -/
theorem chain_edgePath_aux {groups : List FileGroup} :
    ∀ (n : Nat), ∀ u ∈ groups, u.directory.data.length ≤ n → ∀ v ∈ groups,
      u.language = v.language → isChildOf u.directory v.directory = true →
      Relation.TransGen (fun a b : FileGroup =>
        (getTaskId a, getTaskId b) ∈ buildEdges groups) u v := by
  intro n
  induction n with
  | zero =>
    intro u hu hlen v hv hlang hchild
    have := isChildOf_length hchild
    omega
  | succ n ih =>
    intro u hu hlen v hv hlang hchild
    by_cases hMe : groups.filter (fun m => m.language == u.language &&
        isChildOf u.directory m.directory && isChildOf m.directory v.directory) = []
    · refine Relation.TransGen.single ?_
      rw [mem_buildEdges]
      refine ⟨u, hu, v, hv, rfl, rfl, hlang, hchild, ?_⟩
      unfold isDirectParent
      rw [Bool.not_eq_true']
      rw [List.any_eq_false]
      intro m hm hcond
      simp only [Bool.and_eq_true, beq_iff_eq, bne_iff_ne] at hcond
      obtain ⟨⟨⟨⟨hl, -⟩, -⟩, hc1⟩, hc2⟩ := hcond
      have hmem : m ∈ groups.filter (fun m => m.language == u.language &&
          isChildOf u.directory m.directory && isChildOf m.directory v.directory) := by
        rw [List.mem_filter]
        refine ⟨hm, ?_⟩
        simp [hl, hc1, hc2]
      rw [hMe] at hmem
      cases hmem
    · obtain ⟨m, hmM, hmax⟩ := exists_max_dir _ hMe
      rw [List.mem_filter] at hmM
      obtain ⟨hmg, hmcond⟩ := hmM
      simp only [Bool.and_eq_true, beq_iff_eq] at hmcond
      obtain ⟨⟨hml, hmc1⟩, hmc2⟩ := hmcond
      have hedge : (getTaskId u, getTaskId m) ∈ buildEdges groups := by
        rw [mem_buildEdges]
        refine ⟨u, hu, m, hmg, rfl, rfl, hml.symm, hmc1, ?_⟩
        unfold isDirectParent
        rw [Bool.not_eq_true']
        rw [List.any_eq_false]
        intro m' hm' hcond
        simp only [Bool.and_eq_true, beq_iff_eq, bne_iff_ne] at hcond
        obtain ⟨⟨⟨⟨hl', -⟩, -⟩, hc1'⟩, hc2'⟩ := hcond
        have hm'M : m' ∈ groups.filter (fun x => x.language == u.language &&
            isChildOf u.directory x.directory && isChildOf x.directory v.directory) := by
          rw [List.mem_filter]
          refine ⟨hm', ?_⟩
          simp [hl', hc1', isChildOf_trans hc2' hmc2]
        have hlen' := hmax m' hm'M
        have := isChildOf_length hc2'
        omega
      have hmlen : m.directory.data.length ≤ n := by
        have := isChildOf_length hmc1
        omega
      exact Relation.TransGen.head hedge
        (ih m hmg hmlen v hv (hml.trans hlang) hmc2)

/-- A strict same-language ancestor is reachable through dependency edges. -/
theorem chain_edgePath {groups : List FileGroup} {u v : FileGroup}
    (hu : u ∈ groups) (hv : v ∈ groups) (hlang : u.language = v.language)
    (hchild : isChildOf u.directory v.directory = true) :
    Relation.TransGen (fun a b : FileGroup =>
      (getTaskId a, getTaskId b) ∈ buildEdges groups) u v :=
  chain_edgePath_aux u.directory.data.length u hu (le_refl _) v hv hlang hchild

theorem doneIds_nodup {c : Nat} {groups : List FileGroup} {s : SchedState}
    (inv : RunInv c groups s) : (s.done.map Prod.fst).Nodup := by
  have nd := inv.nodupIds
  rw [List.nodup_append] at nd
  obtain ⟨-, hRD, -⟩ := nd
  rw [List.nodup_append] at hRD
  exact hRD.2.1

/-- Completion order follows every chain of dependency edges. -/
theorem transGen_done_order {c : Nat} {groups : List FileGroup} {s : SchedState}
    (inv : RunInv c groups s) {u v : FileGroup}
    (h : Relation.TransGen (fun a b : FileGroup =>
      (getTaskId a, getTaskId b) ∈ buildEdges groups) u v)
    (hv : getTaskId v ∈ s.done.map Prod.fst) :
    inOrder (s.done.map Prod.fst) (getTaskId u) (getTaskId v) := by
  induction h with
  | single hr => exact inv.edge_order _ hr hv
  | tail hab hbc ih =>
    rename_i b v'
    have h1 : inOrder (s.done.map Prod.fst) (getTaskId b) (getTaskId v') :=
      inv.edge_order _ hbc hv
    have h2 := ih (inOrder_mem_left h1)
    exact inOrder_trans (doneIds_nodup inv) h2 h1

theorem map_fst_decomp {α β : Type} {l : List (α × β)} {L1 L2 : List α} {k : α}
    (h : l.map Prod.fst = L1 ++ k :: L2) :
    ∃ l1 p l2, l = l1 ++ p :: l2 ∧ p.1 = k ∧
      l1.map Prod.fst = L1 ∧ l2.map Prod.fst = L2 := by
  induction l generalizing L1 with
  | nil =>
    exfalso
    rw [List.map_nil] at h
    cases L1 <;> simp at h
  | cons a t ih =>
    rw [List.map_cons] at h
    cases L1 with
    | nil =>
      simp only [List.nil_append, List.cons.injEq] at h
      exact ⟨[], a, t, by simp, h.1, rfl, h.2⟩
    | cons x L1' =>
      simp only [List.cons_append, List.cons.injEq] at h
      obtain ⟨hax, ht⟩ := h
      obtain ⟨l1, p, l2, he, hp, h1, h2⟩ := ih ht
      exact ⟨a :: l1, p, l2, by rw [he]; simp, hp, by simp [h1, hax], h2⟩

theorem done_fst_inj {c : Nat} {groups : List FileGroup} {s : SchedState}
    (inv : RunInv c groups s) :
    ∀ a ∈ s.done, ∀ b ∈ s.done, a.1 = b.1 → a = b :=
  fun _ ha _ hb hab => List.inj_on_of_nodup_map (doneIds_nodup inv) ha hb hab

/-- Pushes of two successfully completed units appear in completion order. -/
theorem pushes_inOrder {c : Nat} {groups : List FileGroup} {s : SchedState}
    (inv : RunInv c groups s) {uid vid : String}
    (hu : (uid, true) ∈ s.done) (hv : (vid, true) ∈ s.done)
    (horder : inOrder (s.done.map Prod.fst) uid vid) :
    inOrder s.pushes (pushOf groups uid) (pushOf groups vid) := by
  obtain ⟨L1, L2, L3, hL⟩ := horder
  obtain ⟨l1, pu, l2', he1, hpu, hm1, hm2⟩ := map_fst_decomp hL
  obtain ⟨l2, pv, l3, he2, hpv, hm3, hm4⟩ := map_fst_decomp hm2
  rw [he2] at he1
  have hpu' : pu = (uid, true) := by
    refine done_fst_inj inv pu (by rw [he1]; simp) (uid, true) hu ?_
    rw [hpu]
  have hpv' : pv = (vid, true) := by
    refine done_fst_inj inv pv (by rw [he1]; simp) (vid, true) hv ?_
    rw [hpv]
  rw [inv.pushes_eq, he1, hpu', hpv']
  rw [List.filter_append, List.filter_cons]
  simp only [if_pos (by simp : ((uid, true).2 = true))]
  rw [List.filter_append, List.filter_cons]
  simp only [if_pos (by simp : ((vid, true).2 = true))]
  refine ⟨(l1.filter fun d => d.2).map (fun d => pushOf groups d.1),
    (l2.filter fun d => d.2).map (fun d => pushOf groups d.1),
    (l3.filter fun d => d.2).map (fun d => pushOf groups d.1), ?_⟩
  simp

theorem pushOf_inj {groups : List FileGroup} {id1 id2 : String}
    (h1 : id1 ∈ groups.map getTaskId) (h2 : id2 ∈ groups.map getTaskId)
    (he : pushOf groups id1 = pushOf groups id2) : id1 = id2 := by
  obtain ⟨g1, hg1⟩ := findGroup_isSome h1
  obtain ⟨g2, hg2⟩ := findGroup_isSome h2
  obtain ⟨hg1m, hg1id⟩ := findGroup_mem hg1
  obtain ⟨hg2m, hg2id⟩ := findGroup_mem hg2
  unfold pushOf at he
  rw [hg1, hg2] at he
  rw [Prod.mk.injEq] at he
  obtain ⟨hlang, hpath⟩ := he
  have hdir : g1.directory = g2.directory := by
    unfold artifactPath at hpath
    have hdata := congrArg String.data hpath
    rw [hlang] at hdata
    simp only [String.data_append] at hdata
    have hdata' : g1.directory.data ++
        ('/' :: (['s', 't', 'y', 'l', 'e', '.'] ++ g2.language.data ++ ['.', 'm', 'd']))
        = g2.directory.data ++
        ('/' :: (['s', 't', 'y', 'l', 'e', '.'] ++ g2.language.data ++ ['.', 'm', 'd'])) := by
      simpa [List.append_assoc] using hdata
    exact String.ext (List.append_left_injective _ hdata')
  rw [← hg1id, ← hg2id]
  unfold getTaskId
  rw [hlang, hdir]

theorem pushes_nodup {c : Nat} {groups : List FileGroup} {s : SchedState}
    (inv : RunInv c groups s) : s.pushes.Nodup := by
  rw [inv.pushes_eq]
  have hdN : s.done.Nodup := List.Nodup.of_map Prod.fst (doneIds_nodup inv)
  refine List.Nodup.map_on ?_ (hdN.filter _)
  intro d hd d' hd' he
  have hd1 : d.1 ∈ groups.map getTaskId :=
    inv.done_mem d.1 (List.mem_map_of_mem Prod.fst (List.mem_of_mem_filter hd))
  have hd2 : d'.1 ∈ groups.map getTaskId :=
    inv.done_mem d'.1 (List.mem_map_of_mem Prod.fst (List.mem_of_mem_filter hd'))
  exact done_fst_inj inv d (List.mem_of_mem_filter hd) d' (List.mem_of_mem_filter hd')
    (pushOf_inj hd1 hd2 he)

/-! Properties of the promotion and cleanup phase. -/
theorem langsOf_foldl_nodup (pushes : List (String × String))
    (acc : List String) (hacc : acc.Nodup) :
    (pushes.foldl (fun acc lp =>
      if acc.contains lp.1 then acc else acc ++ [lp.1]) acc).Nodup := by
  induction pushes generalizing acc with
  | nil => exact hacc
  | cons lp t ih =>
    simp only [List.foldl_cons]
    by_cases hc : acc.contains lp.1
    · rw [if_pos hc]
      exact ih acc hacc
    · rw [if_neg hc]
      refine ih _ ?_
      rw [List.nodup_append]
      refine ⟨hacc, List.nodup_singleton _, ?_⟩
      intro x hx hx'
      rw [List.mem_singleton] at hx'
      subst hx'
      exact hc (by simpa using hx)

/-- The createdStyleGuides key list has no duplicate languages. -/
theorem langsOf_nodup (pushes : List (String × String)) :
    (langsOf pushes).Nodup :=
  langsOf_foldl_nodup pushes [] List.nodup_nil

theorem mem_langsOf_foldl (pushes : List (String × String)) (acc : List String)
    (x : String) :
    x ∈ (pushes.foldl (fun acc lp =>
      if acc.contains lp.1 then acc else acc ++ [lp.1]) acc) ↔
      x ∈ acc ∨ ∃ p, (x, p) ∈ pushes := by
  induction pushes generalizing acc with
  | nil => simp
  | cons lp t ih =>
    simp only [List.foldl_cons]
    by_cases hc : acc.contains lp.1
    · rw [if_pos hc]
      rw [ih]
      constructor
      · rintro (hx | ⟨p, hp⟩)
        · exact Or.inl hx
        · exact Or.inr ⟨p, by simp [hp]⟩
      · rintro (hx | ⟨p, hp⟩)
        · exact Or.inl hx
        · rcases List.mem_cons.mp hp with he | hp'
          · left
            have hx1 : x = lp.1 := by rw [← he]
            rw [hx1]
            simpa using hc
          · exact Or.inr ⟨p, hp'⟩
    · rw [if_neg hc]
      rw [ih]
      constructor
      · rintro (hx | ⟨p, hp⟩)
        · rcases List.mem_append.mp hx with hx | hx
          · exact Or.inl hx
          · rw [List.mem_singleton] at hx
            exact Or.inr ⟨lp.2, by rw [hx]; simp⟩
        · exact Or.inr ⟨p, by simp [hp]⟩
      · rintro (hx | ⟨p, hp⟩)
        · exact Or.inl (List.mem_append.mpr (Or.inl hx))
        · rcases List.mem_cons.mp hp with he | hp'
          · left
            refine List.mem_append.mpr (Or.inr ?_)
            rw [List.mem_singleton]
            rw [← he]
          · exact Or.inr ⟨p, hp'⟩

theorem mem_langsOf {pushes : List (String × String)} {x : String} :
    x ∈ langsOf pushes ↔ ∃ p, (x, p) ∈ pushes := by
  unfold langsOf
  rw [mem_langsOf_foldl]
  simp

theorem guidesFor_getLast_isSome {pushes : List (String × String)} {l : String}
    (h : l ∈ langsOf pushes) : ∃ src, (guidesFor pushes l).getLast? = some src := by
  obtain ⟨p, hp⟩ := mem_langsOf.mp h
  have hmem : p ∈ guidesFor pushes l := by
    unfold guidesFor
    rw [List.mem_map]
    exact ⟨(l, p), by rw [List.mem_filter]; exact ⟨hp, by simp⟩, rfl⟩
  cases hg : (guidesFor pushes l).getLast? with
  | some src => exact ⟨src, rfl⟩
  | none =>
    exfalso
    rw [List.getLast?_eq_none_iff] at hg
    rw [hg] at hmem
    cases hmem

theorem getLast_mem_pushes {pushes : List (String × String)} {l src : String}
    (h : (guidesFor pushes l).getLast? = some src) : (l, src) ∈ pushes := by
  have hmem : src ∈ guidesFor pushes l := List.mem_of_mem_getLast? h
  unfold guidesFor at hmem
  rw [List.mem_map] at hmem
  obtain ⟨lp, hlp, hsrc⟩ := hmem
  rw [List.mem_filter] at hlp
  have h1 : lp.1 = l := by simpa using hlp.2
  have hlpe : lp = (l, src) := by
    obtain ⟨a, b⟩ := lp
    simp only [Prod.mk.injEq]
    exact ⟨h1, hsrc⟩
  exact hlpe ▸ hlp.1

theorem attempts_map_snd (pushes : List (String × String)) (outputDir : String)
    (L : List String)
    (hL : ∀ l ∈ L, ∃ src, (guidesFor pushes l).getLast? = some src) :
    (L.filterMap fun l => (guidesFor pushes l).getLast?.map fun src =>
      (src, outputDir ++ "/" ++ (l ++ ".md"))).map Prod.snd
      = L.map fun l => outputDir ++ "/" ++ (l ++ ".md") := by
  induction L with
  | nil => rfl
  | cons l t ih =>
    obtain ⟨src, hsrc⟩ := hL l (by simp)
    have hrest := ih fun x hx => hL x (by simp [hx])
    simp [List.filterMap_cons, hsrc, hrest]

/-- Every push comes from a successfully completed unit and carries its
language and artifact path. -/
theorem push_src {c : Nat} {groups : List FileGroup} {s : SchedState}
    (inv : RunInv c groups s) {lp : String × String} (h : lp ∈ s.pushes) :
    ∃ g ∈ groups, lp = (g.language, artifactPath g) ∧
      (getTaskId g, true) ∈ s.done := by
  rw [inv.pushes_eq] at h
  rw [List.mem_map] at h
  obtain ⟨d, hd, hlp⟩ := h
  rw [List.mem_filter] at hd
  obtain ⟨hdd, hdt⟩ := hd
  have hid : d.1 ∈ groups.map getTaskId :=
    inv.done_mem d.1 (List.mem_map_of_mem Prod.fst hdd)
  obtain ⟨g, hg⟩ := findGroup_isSome hid
  obtain ⟨hgm, hgid⟩ := findGroup_mem hg
  refine ⟨g, hgm, ?_, ?_⟩
  · rw [← hlp]
    unfold pushOf
    rw [hg]
  · rw [hgid]
    have hd2 : d.2 = true := by simpa using hdt
    have hde : d = (d.1, true) := by
      cases d
      simp at hd2
      simp [hd2]
    rw [← hde]
    exact hdd

/-! Artifact paths determine languages and directories when languages contain
no path separator (languages are file-extension names). -/
theorem slashfree_split {p q r t : List Char}
    (hp : '/' ∉ p) (hq : '/' ∉ q) (h : p ++ '/' :: r = q ++ '/' :: t) :
    p = q ∧ r = t := by
  induction p generalizing q with
  | nil =>
    cases q with
    | nil =>
      simp only [List.nil_append, List.cons.injEq, true_and] at h
      exact ⟨rfl, h⟩
    | cons d q' =>
      exfalso
      simp only [List.nil_append, List.cons_append, List.cons.injEq] at h
      exact hq (by rw [← h.1]; simp)
  | cons ch p' ih =>
    cases q with
    | nil =>
      exfalso
      simp only [List.cons_append, List.nil_append, List.cons.injEq] at h
      exact hp (by rw [h.1]; simp)
    | cons d q' =>
      simp only [List.cons_append, List.cons.injEq] at h
      obtain ⟨hcd, hrest⟩ := h
      have hp' : '/' ∉ p' := fun hm => hp (by simp [hm])
      have hq' : '/' ∉ q' := fun hm => hq (by simp [hm])
      obtain ⟨hpq, hrt⟩ := ih hp' hq' hrest
      exact ⟨by rw [hcd, hpq], hrt⟩

theorem artifactPath_data (g : FileGroup) :
    (artifactPath g).data = g.directory.data ++
      '/' :: (['s', 't', 'y', 'l', 'e', '.'] ++ g.language.data ++ ['.', 'm', 'd']) := by
  unfold artifactPath
  simp only [String.data_append]
  simp [List.append_assoc]

theorem artifactPath_inj {g1 g2 : FileGroup}
    (h1 : '/' ∉ g1.language.data) (h2 : '/' ∉ g2.language.data)
    (h : artifactPath g1 = artifactPath g2) :
    g1.language = g2.language ∧ g1.directory = g2.directory := by
  have hd := congrArg String.data h
  rw [artifactPath_data, artifactPath_data] at hd
  have hrev := congrArg List.reverse hd
  have hform : ∀ (g : FileGroup),
      (g.directory.data ++ '/' :: (['s', 't', 'y', 'l', 'e', '.'] ++ g.language.data ++ ['.', 'm', 'd'])).reverse
      = (['s', 't', 'y', 'l', 'e', '.'] ++ g.language.data ++ ['.', 'm', 'd']).reverse
        ++ '/' :: g.directory.data.reverse := by
    intro g
    rw [List.reverse_append, List.reverse_cons]
    simp [List.append_assoc]
  rw [hform g1, hform g2] at hrev
  have hsf1 : '/' ∉ (['s', 't', 'y', 'l', 'e', '.'] ++ g1.language.data ++ ['.', 'm', 'd']).reverse := by
    rw [List.mem_reverse]
    intro hm
    rcases List.mem_append.mp hm with hm | hm
    · rcases List.mem_append.mp hm with hm | hm
      · simp at hm
      · exact h1 hm
    · simp at hm
  have hsf2 : '/' ∉ (['s', 't', 'y', 'l', 'e', '.'] ++ g2.language.data ++ ['.', 'm', 'd']).reverse := by
    rw [List.mem_reverse]
    intro hm
    rcases List.mem_append.mp hm with hm | hm
    · rcases List.mem_append.mp hm with hm | hm
      · simp at hm
      · exact h2 hm
    · simp at hm
  obtain ⟨hsuf, hdir⟩ := slashfree_split hsf1 hsf2 hrev
  have hdir' : g1.directory = g2.directory :=
    String.ext (List.reverse_injective hdir)
  have hsuf' : ['s', 't', 'y', 'l', 'e', '.'] ++ g1.language.data ++ ['.', 'm', 'd']
      = ['s', 't', 'y', 'l', 'e', '.'] ++ g2.language.data ++ ['.', 'm', 'd'] :=
    List.reverse_injective (by simpa using congrArg List.reverse hsuf)
  have hlang : g1.language.data = g2.language.data := by
    rw [List.append_assoc, List.append_assoc] at hsuf'
    have hc1 := List.append_cancel_left hsuf'
    exact List.append_left_injective _ hc1
  exact ⟨String.ext hlang, hdir'⟩

theorem splitOnSlash_ne_nil (l : List Char) : splitOnSlash l ≠ [] := by
  cases l with
  | nil => simp [splitOnSlash]
  | cons ch rest =>
    unfold splitOnSlash
    by_cases hc : ch = '/'
    · simp [hc]
    · rw [if_neg hc]
      split <;> simp

theorem splitOnSlash_append (a b : List Char) :
    splitOnSlash (a ++ '/' :: b) = splitOnSlash a ++ splitOnSlash b := by
  induction a with
  | nil =>
    show splitOnSlash ('/' :: b) = splitOnSlash [] ++ splitOnSlash b
    simp only [splitOnSlash]
    simp
  | cons ch a' ih =>
    show splitOnSlash (ch :: (a' ++ '/' :: b))
      = splitOnSlash (ch :: a') ++ splitOnSlash b
    by_cases hc : ch = '/'
    · subst hc
      simp only [splitOnSlash]
      simp only [if_true]
      rw [ih]
      simp
    · simp only [splitOnSlash]
      rw [if_neg hc, if_neg hc]
      rw [ih]
      cases hs : splitOnSlash a' with
      | nil => exact absurd hs (splitOnSlash_ne_nil a')
      | cons s ss => simp [hs]

theorem splitOnSlash_noslash (l : List Char) (h : '/' ∉ l) :
    splitOnSlash l = [l] := by
  induction l with
  | nil => rfl
  | cons ch rest ih =>
    unfold splitOnSlash
    have hc : ch ≠ '/' := fun he => h (by simp [he])
    rw [if_neg hc]
    rw [ih fun hm => h (by simp [hm])]

theorem splitSegs_append (a b : List Char) :
    splitSegs (a ++ '/' :: b) = splitSegs a ++ splitSegs b := by
  unfold splitSegs
  rw [splitOnSlash_append, List.filter_append]

theorem splitSegs_noslash (l : List Char) (h : '/' ∉ l) (hne : l ≠ []) :
    splitSegs l = [l] := by
  unfold splitSegs
  rw [splitOnSlash_noslash l h]
  simp [hne]

theorem dropCommon_self_append (l : List (List Char)) (x : List Char) :
    dropCommon l (l ++ [x]) = ([], [x]) := by
  induction l with
  | nil =>
    unfold dropCommon
    simp
  | cons a as ih =>
    show dropCommon (a :: as) (a :: (as ++ [x])) = ([], [x])
    unfold dropCommon
    rw [if_pos rfl]
    exact ih

/-- For a row exactly one segment below the parent, the returned relative
directory is that segment. -/
theorem relativeP_under (parent : String) (rest : List Char) (hne : rest ≠ [])
    (hns : '/' ∉ rest) :
    relativeP parent (String.mk (parent.data ++ '/' :: rest)) = String.mk rest := by
  unfold relativeP
  show String.mk (joinSlash ((dropCommon (splitSegs parent.data)
    (splitSegs (parent.data ++ '/' :: rest))).1.map (fun _ => ['.', '.']) ++
    (dropCommon (splitSegs parent.data) (splitSegs (parent.data ++ '/' :: rest))).2)) = _
  rw [splitSegs_append, splitSegs_noslash rest hns hne, dropCommon_self_append]
  simp [joinSlash]

theorem artifactPath_inj_same_lang {g1 g2 : FileGroup}
    (hl : g1.language = g2.language) (h : artifactPath g1 = artifactPath g2) :
    g1.directory = g2.directory := by
  have hd := congrArg String.data h
  rw [artifactPath_data, artifactPath_data, hl] at hd
  exact String.ext (List.append_left_injective _ hd)

theorem filter_working_length {c : Nat} {groups : List FileGroup}
    {s : SchedState} (inv : RunInv c groups s) :
    (s.workers.filter fun w => w.status == WStatus.working).length
      = s.running.length := by
  have hallN : ((List.range c).map (· + 1)).Nodup := by
    refine List.Nodup.map_on ?_ (List.nodup_range c)
    intro x _ y _ hxy
    omega
  have hfreeWnd : (s.freeQ ++ s.running.map Prod.snd).Nodup :=
    inv.free_perm.symm.nodup hallN
  rw [List.nodup_append] at hfreeWnd
  obtain ⟨-, hWnd, -⟩ := hfreeWnd
  have hWsub : ∀ x ∈ s.running.map Prod.snd, x ∈ s.workers.map Worker.id := by
    intro x hx
    rw [inv.workers_ids]
    exact inv.free_perm.mem_iff.mp (List.mem_append.mpr (Or.inr hx))
  have hcongr : s.workers.filter (fun w => w.status == WStatus.working)
      = s.workers.filter fun w => (s.running.map Prod.snd).contains w.id := by
    apply List.filter_congr
    intro w hw
    by_cases hmem : w.id ∈ s.running.map Prod.snd
    · have := inv.held_working w hw hmem
      simp [this, hmem]
    · have := inv.not_held_idle w hw hmem
      rw [this]
      simp [hmem, mkIdleWorker]
  rw [hcongr]
  have hmap : (s.workers.filter fun w => (s.running.map Prod.snd).contains w.id).map Worker.id
      = (s.workers.map Worker.id).filter fun i => (s.running.map Prod.snd).contains i :=
    map_filter_comm Worker.id (fun i => (s.running.map Prod.snd).contains i) s.workers
  have hlen : (s.workers.filter fun w => (s.running.map Prod.snd).contains w.id).length
      = ((s.workers.map Worker.id).filter fun i => (s.running.map Prod.snd).contains i).length := by
    rw [← hmap, List.length_map]
  rw [hlen]
  have hperm : List.Perm
      ((s.workers.map Worker.id).filter fun i => (s.running.map Prod.snd).contains i)
      (s.running.map Prod.snd) := by
    have hidN : (s.workers.map Worker.id).Nodup := by
      rw [inv.workers_ids]
      exact hallN
    refine (List.perm_ext_iff_of_nodup (hidN.filter _) hWnd).mpr ?_
    intro x
    rw [List.mem_filter]
    constructor
    · rintro ⟨-, hx⟩
      simpa using hx
    · intro hx
      exact ⟨hWsub x hx, by simpa using hx⟩
  rw [hperm.length_eq, List.length_map]

/-! Claim theorems. -/
/-- C1: over the (by construction acyclic) edge set built from directory
nesting, a WorkUnit's task never begins executing before every same-language
direct-child unit (every unit with an edge into it) has completed, successes
and failures alike, for every concurrency setting. -/
theorem c1_no_start_before_children {c : Nat} {groups : List FileGroup}
    {acts : List Act} {s s' : SchedState} {pid cid : String}
    (HN : (groups.map getTaskId).Nodup)
    (hrun : runActs c groups acts = some s)
    (hstep : stepFn c groups (buildEdges groups) s (Act.start pid) = some s')
    (hedge : (cid, pid) ∈ buildEdges groups) :
    cid ∈ s.done.map Prod.fst := by
  have inv := inv_runActs HN hrun
  obtain ⟨rest, w, ws, g, hr, -, -, -, -⟩ := stepFn_start_elim hstep
  exact inv.edge_done (cid, pid) hedge (Or.inl (by rw [hr]; simp))

theorem c1_witness :
    "ts:/app/src" ∈ (((runActs 2 exGroups exActs1).getD default).done.map Prod.fst) :=
  @c1_no_start_before_children 2 exGroups exActs1
    ((runActs 2 exGroups exActs1).getD default)
    ((stepFn 2 exGroups (buildEdges exGroups)
      ((runActs 2 exGroups exActs1).getD default) (Act.start "ts:/app")).getD default)
    "ts:/app" "ts:/app/src"
    (by decide) (by rfl) (by rfl) (by decide)

/-- C4: a throwing task does not abort the run: the settle transition updates
the counts, the ready queue and the completion record exactly as a successful
one does, from any reachable non-settled state a further transition is
enabled, and in every settled reachable state every unit has been attempted —
the run value exists rather than rejecting. -/
theorem c4_partial_failure_resilience {c : Nat} {groups : List FileGroup}
    {acts : List Act} {s : SchedState}
    (HN : (groups.map getTaskId).Nodup) (hc : 1 ≤ c)
    (hrun : runActs c groups acts = some s) :
    ((s.ready ≠ [] ∨ s.running ≠ []) →
      ∃ a s', stepFn c groups (buildEdges groups) s a = some s') ∧
    (s.ready = [] → s.running = [] →
      ∀ id ∈ groups.map getTaskId, id ∈ s.done.map Prod.fst) ∧
    (∀ (id : String) (ok : Bool) (w : Nat) (g : FileGroup),
      (finishUpd (buildEdges groups) s id ok w g).inDeg
        = (finishUpd (buildEdges groups) s id true w g).inDeg ∧
      (finishUpd (buildEdges groups) s id ok w g).ready
        = (finishUpd (buildEdges groups) s id true w g).ready ∧
      (finishUpd (buildEdges groups) s id ok w g).done.map Prod.fst
        = (finishUpd (buildEdges groups) s id true w g).done.map Prod.fst) := by
  have inv := inv_runActs HN hrun
  refine ⟨?_, ?_, ?_⟩
  · intro hne
    refine progress_step hc inv ?_
    intro hset
    rcases hne with hne | hne
    · exact hne hset.1
    · exact hne hset.2
  · intro h1 h2
    exact settled_all_done HN inv h1 h2
  · intro id ok w g
    refine ⟨rfl, rfl, ?_⟩
    rw [finishUpd_done, finishUpd_done]
    simp

theorem c4_witness :
    ((((runActs 2 exGroups exActs1).getD default).ready ≠ [] ∨
        ((runActs 2 exGroups exActs1).getD default).running ≠ []) →
      ∃ a s', stepFn 2 exGroups (buildEdges exGroups)
        ((runActs 2 exGroups exActs1).getD default) a = some s') ∧
    (((runActs 2 exGroups exActs1).getD default).ready = [] →
      ((runActs 2 exGroups exActs1).getD default).running = [] →
      ∀ id ∈ exGroups.map getTaskId,
        id ∈ ((runActs 2 exGroups exActs1).getD default).done.map Prod.fst) ∧
    (∀ (id : String) (ok : Bool) (w : Nat) (g : FileGroup),
      (finishUpd (buildEdges exGroups) ((runActs 2 exGroups exActs1).getD default) id ok w g).inDeg
        = (finishUpd (buildEdges exGroups) ((runActs 2 exGroups exActs1).getD default) id true w g).inDeg ∧
      (finishUpd (buildEdges exGroups) ((runActs 2 exGroups exActs1).getD default) id ok w g).ready
        = (finishUpd (buildEdges exGroups) ((runActs 2 exGroups exActs1).getD default) id true w g).ready ∧
      (finishUpd (buildEdges exGroups) ((runActs 2 exGroups exActs1).getD default) id ok w g).done.map Prod.fst
        = (finishUpd (buildEdges exGroups) ((runActs 2 exGroups exActs1).getD default) id true w g).done.map Prod.fst) :=
  @c4_partial_failure_resilience 2 exGroups exActs1
    ((runActs 2 exGroups exActs1).getD default)
    (by decide) (by omega) (by rfl)

/-- C5: at most concurrency tasks are in flight at any reachable state, the
workers in working status are exactly the holders of in-flight tasks (hence
at most concurrency of them), and the pool holds exactly concurrency worker
slots. -/
theorem c5_concurrency_bound {c : Nat} {groups : List FileGroup}
    {acts : List Act} {s : SchedState}
    (HN : (groups.map getTaskId).Nodup)
    (hrun : runActs c groups acts = some s) :
    s.workers.length = c ∧ s.running.length ≤ c ∧
    (s.workers.filter fun w => w.status == WStatus.working).length
      = s.running.length := by
  have inv := inv_runActs HN hrun
  refine ⟨?_, ?_, filter_working_length inv⟩
  · have := congrArg List.length inv.workers_ids
    simpa using this
  · have := inv.free_perm.length_eq
    simp only [List.length_append, List.length_map, List.length_range] at this
    omega

theorem c5_witness :
    ((runActs 2 exGroups exActs1).getD default).workers.length = 2 ∧
    ((runActs 2 exGroups exActs1).getD default).running.length ≤ 2 ∧
    (((runActs 2 exGroups exActs1).getD default).workers.filter
      fun w => w.status == WStatus.working).length
      = ((runActs 2 exGroups exActs1).getD default).running.length :=
  @c5_concurrency_bound 2 exGroups exActs1
    ((runActs 2 exGroups exActs1).getD default) (by decide) (by rfl)

/-- C10: no two in-flight tasks hold the same worker id, every held id is one
of the pool ids 1..concurrency, and a held id is never simultaneously in the
free queue. -/
theorem c10_worker_exclusivity {c : Nat} {groups : List FileGroup}
    {acts : List Act} {s : SchedState}
    (HN : (groups.map getTaskId).Nodup)
    (hrun : runActs c groups acts = some s) :
    (s.running.map Prod.snd).Nodup ∧
    (∀ t ∈ s.running, t.2 ∈ (List.range c).map (· + 1)) ∧
    (∀ t ∈ s.running, t.2 ∉ s.freeQ) := by
  have inv := inv_runActs HN hrun
  have hallN : ((List.range c).map (· + 1)).Nodup := by
    refine List.Nodup.map_on ?_ (List.nodup_range c)
    intro x _ y _ hxy
    omega
  have hfreeWnd : (s.freeQ ++ s.running.map Prod.snd).Nodup :=
    inv.free_perm.symm.nodup hallN
  rw [List.nodup_append] at hfreeWnd
  obtain ⟨-, hWnd, hdisj⟩ := hfreeWnd
  refine ⟨hWnd, ?_, ?_⟩
  · intro t ht
    exact inv.free_perm.mem_iff.mp
      (List.mem_append.mpr (Or.inr (List.mem_map_of_mem Prod.snd ht)))
  · intro t ht hfree
    exact hdisj hfree (List.mem_map_of_mem Prod.snd ht)

theorem c10_witness :
    ((((runActs 2 cxGroups [Act.start "ts:/a", Act.start "ts:/b"]).getD default).running.map Prod.snd).Nodup) ∧
    (∀ t ∈ ((runActs 2 cxGroups [Act.start "ts:/a", Act.start "ts:/b"]).getD default).running,
      t.2 ∈ (List.range 2).map (· + 1)) ∧
    (∀ t ∈ ((runActs 2 cxGroups [Act.start "ts:/a", Act.start "ts:/b"]).getD default).running,
      t.2 ∉ ((runActs 2 cxGroups [Act.start "ts:/a", Act.start "ts:/b"]).getD default).freeQ) :=
  @c10_worker_exclusivity 2 cxGroups [Act.start "ts:/a", Act.start "ts:/b"]
    ((runActs 2 cxGroups [Act.start "ts:/a", Act.start "ts:/b"]).getD default)
    (by decide) (by rfl)

/-- C8: whether the task succeeds or fails, the settle transition releases the
held worker back to the free pool, resets the worker's observable fields to
idle (status idle, language, directory, error and progress cleared), advances
the completed-file counter by exactly the unit's file count, and invokes
onProgress with the new count. -/
theorem c8_worker_release {c : Nat} {groups : List FileGroup}
    {edges : List (String × String)} {s : SchedState} {id tid : String}
    {w : Nat} {g : FileGroup} (ok : Bool)
    (hfind : s.running.find? (fun t => t.1 == id) = some (tid, w))
    (hg : findGroup groups id = some g) :
    stepFn c groups edges s (Act.finish id ok)
      = some (finishUpd edges s id ok w g) ∧
    (finishUpd edges s id ok w g).freeQ = s.freeQ ++ [w] ∧
    (finishUpd edges s id ok w g).completed = s.completed + g.files.length ∧
    (finishUpd edges s id ok w g).progressLog
      = s.progressLog ++ [s.completed + g.files.length] ∧
    ∀ wk ∈ (finishUpd edges s id ok w g).workers, wk.id = w →
      wk.status = WStatus.idle ∧ wk.language = none ∧ wk.directory = none ∧
      wk.error = none ∧ wk.progress = none := by
  refine ⟨?_, finishUpd_freeQ edges s id ok w g,
    finishUpd_completed edges s id ok w g,
    finishUpd_progressLog edges s id ok w g, ?_⟩
  · simp [stepFn, hfind, hg]
  · intro wk hmem hid
    rw [finishUpd_workers] at hmem
    simp only [updateWorkerL, List.mem_map] at hmem
    obtain ⟨w0, -, hw0eq⟩ := hmem
    by_cases hb : w0.id = w
    · simp only [hb, beq_self_eq_true, if_true] at hw0eq
      rw [← hw0eq]
      exact ⟨rfl, rfl, rfl, rfl, rfl⟩
    · have : (w0.id == w) = false := by
        simp [hb]
      rw [this] at hw0eq
      simp only [Bool.false_eq_true, if_false] at hw0eq
      rw [← hw0eq] at hid
      exact absurd hid hb

theorem c8_witness :
    stepFn 2 exGroups (buildEdges exGroups)
        ((runActs 2 exGroups [Act.start "ts:/app/src"]).getD default)
        (Act.finish "ts:/app/src" false)
      = some (finishUpd (buildEdges exGroups)
          ((runActs 2 exGroups [Act.start "ts:/app/src"]).getD default)
          "ts:/app/src" false 1 ⟨"ts", "/app/src", ["a.ts", "b.ts"]⟩) ∧
    (finishUpd (buildEdges exGroups)
        ((runActs 2 exGroups [Act.start "ts:/app/src"]).getD default)
        "ts:/app/src" false 1 ⟨"ts", "/app/src", ["a.ts", "b.ts"]⟩).freeQ
      = ((runActs 2 exGroups [Act.start "ts:/app/src"]).getD default).freeQ ++ [1] ∧
    (finishUpd (buildEdges exGroups)
        ((runActs 2 exGroups [Act.start "ts:/app/src"]).getD default)
        "ts:/app/src" false 1 ⟨"ts", "/app/src", ["a.ts", "b.ts"]⟩).completed
      = ((runActs 2 exGroups [Act.start "ts:/app/src"]).getD default).completed
          + (["a.ts", "b.ts"] : List String).length ∧
    (finishUpd (buildEdges exGroups)
        ((runActs 2 exGroups [Act.start "ts:/app/src"]).getD default)
        "ts:/app/src" false 1 ⟨"ts", "/app/src", ["a.ts", "b.ts"]⟩).progressLog
      = ((runActs 2 exGroups [Act.start "ts:/app/src"]).getD default).progressLog
          ++ [((runActs 2 exGroups [Act.start "ts:/app/src"]).getD default).completed
              + (["a.ts", "b.ts"] : List String).length] ∧
    ∀ wk ∈ (finishUpd (buildEdges exGroups)
        ((runActs 2 exGroups [Act.start "ts:/app/src"]).getD default)
        "ts:/app/src" false 1 ⟨"ts", "/app/src", ["a.ts", "b.ts"]⟩).workers,
      wk.id = 1 →
      wk.status = WStatus.idle ∧ wk.language = none ∧ wk.directory = none ∧
      wk.error = none ∧ wk.progress = none :=
  @c8_worker_release 2 exGroups (buildEdges exGroups)
    ((runActs 2 exGroups [Act.start "ts:/app/src"]).getD default)
    "ts:/app/src" "ts:/app/src" 1 ⟨"ts", "/app/src", ["a.ts", "b.ts"]⟩
    false (by rfl) (by rfl)

/-- C2 (amended): exactly one promotion is attempted per language that
produced an artifact, targeting outputDir/language.md, and the source chosen
is the LAST-PUSHED artifact for that language — wall-clock completion order of
the successful same-language units. When every other successful same-language
unit is a strict directory descendant of a unit gt (in particular when the
same-language units form an ancestor chain with gt nearest the root), the
wall-clock winner coincides with gt's artifact, the topologically last unit;
for incomparable units the winner is schedule-dependent, not topological. -/
theorem c2_promotion {c : Nat} {groups : List FileGroup} {acts : List Act}
    {s : SchedState} (outputDir : String) (renameOk : String → Bool)
    (HN : (groups.map getTaskId).Nodup)
    (hrun : runActs c groups acts = some s) :
    ((finishRun outputDir s.pushes s.createdFiles renameOk).attempts.map
        Prod.snd)
      = (langsOf s.pushes).map (fun l => outputDir ++ "/" ++ (l ++ ".md")) ∧
    (langsOf s.pushes).Nodup ∧
    (∀ gt ∈ groups, (getTaskId gt, true) ∈ s.done →
      (∀ g' ∈ groups, g'.language = gt.language → (getTaskId g', true) ∈ s.done →
        g' ≠ gt → isChildOf g'.directory gt.directory = true) →
      (guidesFor s.pushes gt.language).getLast? = some (artifactPath gt) ∧
      (artifactPath gt, outputDir ++ "/" ++ (gt.language ++ ".md"))
        ∈ (finishRun outputDir s.pushes s.createdFiles renameOk).attempts) := by
  have inv := inv_runActs HN hrun
  have hinj := idInj_of_nodup HN
  have hattEq : (finishRun outputDir s.pushes s.createdFiles renameOk).attempts
      = (langsOf s.pushes).filterMap fun l =>
        (guidesFor s.pushes l).getLast?.map fun src =>
          (src, outputDir ++ "/" ++ (l ++ ".md")) := by
    simp only [finishRun]
  refine ⟨?_, langsOf_nodup s.pushes, ?_⟩
  · rw [hattEq]
    exact attempts_map_snd s.pushes outputDir (langsOf s.pushes)
      fun l hl => guidesFor_getLast_isSome hl
  · intro gt hgt hdone hdesc
    have hpush : (gt.language, artifactPath gt) ∈ s.pushes := by
      rw [inv.pushes_eq]
      rw [List.mem_map]
      refine ⟨(getTaskId gt, true), ?_, ?_⟩
      · rw [List.mem_filter]
        exact ⟨hdone, rfl⟩
      · show pushOf groups (getTaskId gt) = _
        unfold pushOf
        rw [findGroup_self hinj hgt]
    have hlang : gt.language ∈ langsOf s.pushes :=
      mem_langsOf.mpr ⟨artifactPath gt, hpush⟩
    obtain ⟨src, hsrc⟩ := guidesFor_getLast_isSome hlang
    have hsm : (gt.language, src) ∈ s.pushes := getLast_mem_pushes hsrc
    obtain ⟨g, hgm, hglp, hgdone⟩ := push_src inv hsm
    have hgl : g.language = gt.language := by
      have := congrArg Prod.fst hglp
      exact this.symm
    have hga : src = artifactPath g := by
      have := congrArg Prod.snd hglp
      exact this
    have hsrcTop : src = artifactPath gt := by
      by_cases hEq : g = gt
      · rw [hga, hEq]
      · exfalso
        have hchild : isChildOf g.directory gt.directory = true :=
          hdesc g hgm hgl hgdone hEq
        have hchain := chain_edgePath hgm hgt hgl hchild
        have hord := transGen_done_order inv hchain
          (List.mem_map_of_mem Prod.fst hdone)
        have hpord := pushes_inOrder inv hgdone hdone hord
        have hg1 : pushOf groups (getTaskId g) = (gt.language, src) := by
          unfold pushOf
          rw [findGroup_self hinj hgm, ← hgl, hga]
        have hg2 : pushOf groups (getTaskId gt) = (gt.language, artifactPath gt) := by
          unfold pushOf
          rw [findGroup_self hinj hgt]
        rw [hg1, hg2] at hpord
        have hfit : inOrder (s.pushes.filter fun lp => lp.1 == gt.language)
            (gt.language, src) (gt.language, artifactPath gt) :=
          inOrder_filter _ (by simp) (by simp) hpord
        have hgo : inOrder (guidesFor s.pushes gt.language) src (artifactPath gt) := by
          have := inOrder_map Prod.snd hfit
          exact this
        have hgnd : (guidesFor s.pushes gt.language).Nodup := by
          unfold guidesFor
          refine List.Nodup.map_on ?_ ((pushes_nodup inv).filter _)
          intro x hx y hy hxy
          have hx1 : x.1 = gt.language := by
            have := List.of_mem_filter hx
            simpa using this
          have hy1 : y.1 = gt.language := by
            have := List.of_mem_filter hy
            simpa using this
          obtain ⟨xa, xb⟩ := x
          obtain ⟨ya, yb⟩ := y
          simp only at hx1 hy1 hxy
          rw [hx1, hy1, hxy]
        exact inOrder_not_getLast hgnd hgo hsrc
    refine ⟨by rw [← hsrcTop]; exact hsrc, ?_⟩
    rw [hattEq]
    rw [List.mem_filterMap]
    refine ⟨gt.language, hlang, ?_⟩
    rw [hsrc, hsrcTop]
    rfl

theorem c2_witness :
    ((finishRun "/out" ((runActs 2 exGroups exActsFull).getD default).pushes
        ((runActs 2 exGroups exActsFull).getD default).createdFiles
        (fun _ => true)).attempts.map Prod.snd)
      = (langsOf ((runActs 2 exGroups exActsFull).getD default).pushes).map
          (fun l => "/out" ++ "/" ++ (l ++ ".md")) ∧
    (langsOf ((runActs 2 exGroups exActsFull).getD default).pushes).Nodup ∧
    (∀ gt ∈ exGroups,
      (getTaskId gt, true) ∈ ((runActs 2 exGroups exActsFull).getD default).done →
      (∀ g' ∈ exGroups, g'.language = gt.language →
        (getTaskId g', true) ∈ ((runActs 2 exGroups exActsFull).getD default).done →
        g' ≠ gt → isChildOf g'.directory gt.directory = true) →
      (guidesFor ((runActs 2 exGroups exActsFull).getD default).pushes
          gt.language).getLast? = some (artifactPath gt) ∧
      (artifactPath gt, "/out" ++ "/" ++ (gt.language ++ ".md"))
        ∈ (finishRun "/out" ((runActs 2 exGroups exActsFull).getD default).pushes
            ((runActs 2 exGroups exActsFull).getD default).createdFiles
            (fun _ => true)).attempts) :=
  @c2_promotion 2 exGroups exActsFull
    ((runActs 2 exGroups exActsFull).getD default)
    "/out" (fun _ => true) (by decide) (by rfl)

theorem c2_counterexample :
    buildEdges cxGroups = [] ∧
    ((runActs 2 cxGroups cxActsA).getD default).ready = [] ∧
    ((runActs 2 cxGroups cxActsA).getD default).running = [] ∧
    ((runActs 2 cxGroups cxActsB).getD default).ready = [] ∧
    ((runActs 2 cxGroups cxActsB).getD default).running = [] ∧
    (finishRun "/out" ((runActs 2 cxGroups cxActsA).getD default).pushes []
        (fun _ => true)).attempts = [("/b/style.ts.md", "/out/ts.md")] ∧
    (finishRun "/out" ((runActs 2 cxGroups cxActsB).getD default).pushes []
        (fun _ => true)).attempts = [("/a/style.ts.md", "/out/ts.md")] :=
  ⟨rfl, rfl, rfl, rfl, rfl, rfl, rfl⟩

/-- C3: at the end of a run every tracked artifact path is either promoted —
renamed to outputDir/language.md and removed from the cleanup set — or passed
to the final cleanup unlink (which tolerates already-missing files), never
both, and only tracked paths are ever unlinked. -/
theorem c3_cleanup {c : Nat} {groups : List FileGroup} {acts : List Act}
    {s : SchedState} (outputDir : String) (renameOk : String → Bool)
    (HN : (groups.map getTaskId).Nodup)
    (hrun : runActs c groups acts = some s) :
    (∀ p ∈ s.createdFiles,
      ((∃ l, (p, outputDir ++ "/" ++ (l ++ ".md"))
          ∈ (finishRun outputDir s.pushes s.createdFiles renameOk).renamed) ∧
        p ∉ (finishRun outputDir s.pushes s.createdFiles renameOk).deleted) ∨
      (p ∈ (finishRun outputDir s.pushes s.createdFiles renameOk).deleted ∧
        ∀ tgt, (p, tgt)
          ∉ (finishRun outputDir s.pushes s.createdFiles renameOk).renamed)) ∧
    (∀ p ∈ (finishRun outputDir s.pushes s.createdFiles renameOk).deleted,
      p ∈ s.createdFiles) := by
  have hrenEq : (finishRun outputDir s.pushes s.createdFiles renameOk).renamed
      = (langsOf s.pushes).filterMap fun l =>
        if renameOk l then
          (guidesFor s.pushes l).getLast?.map fun src =>
            (src, outputDir ++ "/" ++ (l ++ ".md"))
        else none := by
    simp only [finishRun]
  have hdelEq : (finishRun outputDir s.pushes s.createdFiles renameOk).deleted
      = s.createdFiles.filter fun p =>
        !(((finishRun outputDir s.pushes s.createdFiles renameOk).renamed.map
          Prod.fst).contains p) := by
    simp only [finishRun]
  have hshape : ∀ q ∈ (finishRun outputDir s.pushes s.createdFiles
      renameOk).renamed, ∃ l, q.2 = outputDir ++ "/" ++ (l ++ ".md") := by
    intro q hq
    rw [hrenEq] at hq
    rw [List.mem_filterMap] at hq
    obtain ⟨l, -, hfl⟩ := hq
    by_cases hok : renameOk l
    · rw [if_pos hok] at hfl
      rw [Option.map_eq_some'] at hfl
      obtain ⟨src, -, hq2⟩ := hfl
      exact ⟨l, by rw [← hq2]⟩
    · rw [if_neg hok] at hfl
      exact absurd hfl (by simp)
  refine ⟨?_, ?_⟩
  · intro p hp
    by_cases hc : p ∈ (finishRun outputDir s.pushes s.createdFiles
        renameOk).renamed.map Prod.fst
    · left
      rw [List.mem_map] at hc
      obtain ⟨q, hq, hq1⟩ := hc
      obtain ⟨l, hl⟩ := hshape q hq
      refine ⟨⟨l, ?_⟩, ?_⟩
      · have : q = (p, outputDir ++ "/" ++ (l ++ ".md")) := by
          obtain ⟨qa, qb⟩ := q
          simp only at hq1 hl
          rw [hq1, hl]
        rw [← this]
        exact hq
      · rw [hdelEq]
        intro hmem
        have hfb := List.of_mem_filter hmem
        simp only [Bool.not_eq_eq_eq_not, Bool.not_true, List.contains_eq_any_beq,
          List.any_eq_false, beq_eq_false_iff_ne] at hfb
        exact hfb p (by rw [← hq1]; exact List.mem_map_of_mem Prod.fst hq) (by simp)
    · right
      refine ⟨?_, ?_⟩
      · rw [hdelEq]
        rw [List.mem_filter]
        refine ⟨hp, ?_⟩
        simp only [Bool.not_eq_eq_eq_not, Bool.not_true, List.contains_eq_any_beq,
          List.any_eq_false]
        intro q hq hqp
        exact hc (beq_iff_eq.mp hqp ▸ hq)
      · intro tgt hmem
        exact hc (by
          have := List.mem_map_of_mem Prod.fst hmem
          simpa using this)
  · intro p hp
    rw [hdelEq] at hp
    exact List.mem_of_mem_filter hp

theorem c3_witness :
    (∀ p ∈ ((runActs 2 exGroups exActsFail).getD default).createdFiles,
      ((∃ l, (p, "/out" ++ "/" ++ (l ++ ".md"))
          ∈ (finishRun "/out" ((runActs 2 exGroups exActsFail).getD default).pushes
              ((runActs 2 exGroups exActsFail).getD default).createdFiles
              (fun _ => true)).renamed) ∧
        p ∉ (finishRun "/out" ((runActs 2 exGroups exActsFail).getD default).pushes
              ((runActs 2 exGroups exActsFail).getD default).createdFiles
              (fun _ => true)).deleted) ∨
      (p ∈ (finishRun "/out" ((runActs 2 exGroups exActsFail).getD default).pushes
              ((runActs 2 exGroups exActsFail).getD default).createdFiles
              (fun _ => true)).deleted ∧
        ∀ tgt, (p, tgt)
          ∉ (finishRun "/out" ((runActs 2 exGroups exActsFail).getD default).pushes
              ((runActs 2 exGroups exActsFail).getD default).createdFiles
              (fun _ => true)).renamed)) ∧
    (∀ p ∈ (finishRun "/out" ((runActs 2 exGroups exActsFail).getD default).pushes
              ((runActs 2 exGroups exActsFail).getD default).createdFiles
              (fun _ => true)).deleted,
      p ∈ ((runActs 2 exGroups exActsFail).getD default).createdFiles) :=
  @c3_cleanup 2 exGroups exActsFail
    ((runActs 2 exGroups exActsFail).getD default)
    "/out" (fun _ => true) (by decide) (by rfl)

/-- C6 (amended): if the rename of a language's chosen artifact fails, the run
makes exactly one promotion attempt for that language (no retry), no rename
for it succeeds, and its source artifact is still deleted by the final
cleanup; however the language is NOT absent from the returned map — results
is keyed by createdStyleGuides regardless of rename success, so the language
still maps to language.md. -/
theorem c6_promotion_failure {c : Nat} {groups : List FileGroup}
    {acts : List Act} {s : SchedState} {outputDir l : String}
    {renameOk : String → Bool}
    (HN : (groups.map getTaskId).Nodup)
    (HL : ∀ g ∈ groups, '/' ∉ g.language.data)
    (hrun : runActs c groups acts = some s)
    (hl : l ∈ langsOf s.pushes)
    (hfail : renameOk l = false) :
    ((finishRun outputDir s.pushes s.createdFiles renameOk).attempts.map
        Prod.snd).count (outputDir ++ "/" ++ (l ++ ".md")) = 1 ∧
    (∀ q ∈ (finishRun outputDir s.pushes s.createdFiles renameOk).renamed,
      q.2 ≠ outputDir ++ "/" ++ (l ++ ".md")) ∧
    (∃ src, (guidesFor s.pushes l).getLast? = some src ∧
      src ∈ (finishRun outputDir s.pushes s.createdFiles renameOk).deleted) ∧
    (l, l ++ ".md")
      ∈ (finishRun outputDir s.pushes s.createdFiles renameOk).results := by
  have inv := inv_runActs HN hrun
  have htgtInj : ∀ l1 l2 : String,
      outputDir ++ "/" ++ (l1 ++ ".md") = outputDir ++ "/" ++ (l2 ++ ".md") →
      l1 = l2 := by
    intro l1 l2 h
    have hd := congrArg String.data h
    simp only [String.data_append] at hd
    have h2 := List.append_cancel_left hd
    exact String.ext (List.append_left_injective _ h2)
  have hattEq : (finishRun outputDir s.pushes s.createdFiles renameOk).attempts
      = (langsOf s.pushes).filterMap fun l =>
        (guidesFor s.pushes l).getLast?.map fun src =>
          (src, outputDir ++ "/" ++ (l ++ ".md")) := by
    simp only [finishRun]
  have hrenEq : (finishRun outputDir s.pushes s.createdFiles renameOk).renamed
      = (langsOf s.pushes).filterMap fun l =>
        if renameOk l then
          (guidesFor s.pushes l).getLast?.map fun src =>
            (src, outputDir ++ "/" ++ (l ++ ".md"))
        else none := by
    simp only [finishRun]
  have hdelEq : (finishRun outputDir s.pushes s.createdFiles renameOk).deleted
      = s.createdFiles.filter fun p =>
        !(((finishRun outputDir s.pushes s.createdFiles renameOk).renamed.map
          Prod.fst).contains p) := by
    simp only [finishRun]
  have hresEq : (finishRun outputDir s.pushes s.createdFiles renameOk).results
      = (langsOf s.pushes).map fun l => (l, l ++ ".md") := by
    simp only [finishRun]
  have hrenElim : ∀ q ∈ (finishRun outputDir s.pushes s.createdFiles
      renameOk).renamed, ∃ l', renameOk l' = true ∧
      (guidesFor s.pushes l').getLast? = some q.1 ∧
      q.2 = outputDir ++ "/" ++ (l' ++ ".md") := by
    intro q hq
    rw [hrenEq] at hq
    rw [List.mem_filterMap] at hq
    obtain ⟨l', -, hfl⟩ := hq
    by_cases hok : renameOk l'
    · rw [if_pos hok] at hfl
      rw [Option.map_eq_some'] at hfl
      obtain ⟨src', hsrc', hq2⟩ := hfl
      refine ⟨l', hok, ?_, ?_⟩
      · rw [← hq2]
        exact hsrc'
      · rw [← hq2]
    · rw [if_neg hok] at hfl
      exact absurd hfl (by simp)
  refine ⟨?_, ?_, ?_, ?_⟩
  · rw [hattEq, attempts_map_snd s.pushes outputDir (langsOf s.pushes)
      (fun x hx => guidesFor_getLast_isSome hx)]
    rw [List.count_map_of_injective (langsOf s.pushes)
      (fun x => outputDir ++ "/" ++ (x ++ ".md"))
      (fun a b hab => htgtInj a b hab) l]
    exact List.count_eq_one_of_mem (langsOf_nodup s.pushes) hl
  · intro q hq hq2
    obtain ⟨l', hok, -, htgt⟩ := hrenElim q hq
    rw [htgt] at hq2
    rw [htgtInj l' l hq2] at hok
    rw [hfail] at hok
    exact Bool.false_ne_true hok
  · obtain ⟨src, hsrc⟩ := guidesFor_getLast_isSome hl
    have hsm : (l, src) ∈ s.pushes := getLast_mem_pushes hsrc
    have hcreated : src ∈ s.createdFiles :=
      (inv.created_iff src).mpr ⟨(l, src), hsm, rfl⟩
    refine ⟨src, hsrc, ?_⟩
    rw [hdelEq, List.mem_filter]
    refine ⟨hcreated, ?_⟩
    simp only [Bool.not_eq_eq_eq_not, Bool.not_true, List.contains_eq_any_beq,
      List.any_eq_false]
    intro x hx hxsrc
    have hxsrc' : x = src := (beq_iff_eq.mp hxsrc).symm
    rw [List.mem_map] at hx
    obtain ⟨q, hq, hq1⟩ := hx
    obtain ⟨l'', hok'', hlast'', -⟩ := hrenElim q hq
    rw [hq1, hxsrc'] at hlast''
    have hsm'' : (l'', src) ∈ s.pushes := getLast_mem_pushes hlast''
    obtain ⟨g, hgm, hglp, -⟩ := push_src inv hsm
    obtain ⟨g'', hgm'', hglp'', -⟩ := push_src inv hsm''
    have hal : artifactPath g = artifactPath g'' := by
      have e1 := congrArg Prod.snd hglp
      have e2 := congrArg Prod.snd hglp''
      simp only at e1 e2
      rw [← e1, ← e2]
    have hll := (artifactPath_inj (HL g hgm) (HL g'' hgm'') hal).1
    have hl1 : g.language = l := (congrArg Prod.fst hglp).symm
    have hl2 : g''.language = l'' := (congrArg Prod.fst hglp'').symm
    rw [hl1, hl2] at hll
    rw [← hll, hfail] at hok''
    exact Bool.false_ne_true hok''
  · rw [hresEq, List.mem_map]
    exact ⟨l, hl, rfl⟩

theorem c6_witness :
    ((finishRun "/out" ((runActs 2 exGroups exActsFull).getD default).pushes
        ((runActs 2 exGroups exActsFull).getD default).createdFiles
        (fun _ => false)).attempts.map Prod.snd).count
        ("/out" ++ "/" ++ ("ts" ++ ".md")) = 1 ∧
    (∀ q ∈ (finishRun "/out" ((runActs 2 exGroups exActsFull).getD default).pushes
        ((runActs 2 exGroups exActsFull).getD default).createdFiles
        (fun _ => false)).renamed,
      q.2 ≠ "/out" ++ "/" ++ ("ts" ++ ".md")) ∧
    (∃ src, (guidesFor ((runActs 2 exGroups exActsFull).getD default).pushes
        "ts").getLast? = some src ∧
      src ∈ (finishRun "/out" ((runActs 2 exGroups exActsFull).getD default).pushes
        ((runActs 2 exGroups exActsFull).getD default).createdFiles
        (fun _ => false)).deleted) ∧
    ("ts", "ts" ++ ".md")
      ∈ (finishRun "/out" ((runActs 2 exGroups exActsFull).getD default).pushes
          ((runActs 2 exGroups exActsFull).getD default).createdFiles
          (fun _ => false)).results :=
  @c6_promotion_failure 2 exGroups exActsFull
    ((runActs 2 exGroups exActsFull).getD default)
    "/out" "ts" (fun _ => false)
    (by decide) (by decide) (by rfl) (by decide) (by rfl)

theorem c6_counterexample :
    (finishRun "/out" ((runActs 2 exGroups exActsFull).getD default).pushes
        ((runActs 2 exGroups exActsFull).getD default).createdFiles
        (fun _ => false)).renamed = [] ∧
    ("ts", "ts.md")
      ∈ (finishRun "/out" ((runActs 2 exGroups exActsFull).getD default).pushes
          ((runActs 2 exGroups exActsFull).getD default).createdFiles
          (fun _ => false)).results ∧
    (finishRun "/out" ((runActs 2 exGroups exActsFull).getD default).pushes
        ((runActs 2 exGroups exActsFull).getD default).createdFiles
        (fun _ => false)).deleted
      = ["/app/src/style.ts.md", "/app/style.ts.md"] :=
  ⟨rfl, by decide, rfl⟩

/-- C7 (amended): the constructed edge set contains (g, p) exactly when the
spec's same-language closest-strict-ancestor condition holds; the in-degree
consequence is reversed from the claim: in-degree counts same-language direct
children, so a unit with no same-language strict DESCENDANT starts with
in-degree 0, while a unit with no same-language ancestor can have positive
in-degree. -/
theorem c7_edge_iff {groups : List FileGroup}
    (HN : (groups.map getTaskId).Nodup) :
    (∀ g ∈ groups, ∀ p ∈ groups,
      ((getTaskId g, getTaskId p) ∈ buildEdges groups ↔
        specDirectEdge groups g p)) ∧
    (∀ c : Nat, ∀ p ∈ groups,
      (∀ g ∈ groups, g.language = p.language →
        isChildOf g.directory p.directory = false) →
      alGet (initState c groups).inDeg (getTaskId p) = 0) := by
  have hinj := idInj_of_nodup HN
  constructor
  · intro g hg p hp
    rw [mem_buildEdges]
    constructor
    · rintro ⟨g', hg', p', hp', hxg, hxp, hlang, hchild, hdirect⟩
      have hgg : g = g' := hinj g hg g' hg' hxg
      have hpp : p = p' := hinj p hp p' hp' hxp
      rw [← hgg, ← hpp] at hlang hchild hdirect
      obtain ⟨hpre, hne⟩ := isChildOf_iff.mp hchild
      refine ⟨hlang, ⟨?_, ?_⟩, ?_⟩
      · rw [List.isPrefixOf_iff_prefix, String.data_append]
        exact hpre
      · intro hd
        exact (isChildOf_iff.mp hchild).2 hd
      · rintro ⟨m, hm, hml, ⟨hmp, hmnp⟩, ⟨hmg, hmng⟩⟩
        unfold isDirectParent at hdirect
        rw [Bool.not_eq_eq_eq_not, Bool.not_true, List.any_eq_false] at hdirect
        refine hdirect m hm ?_
        simp only [Bool.and_eq_true, beq_iff_eq, bne_iff_ne]
        refine ⟨⟨⟨⟨hml, hmng⟩, hmnp⟩, ?_⟩, ?_⟩
        · refine isChildOf_iff.mpr ⟨?_, Ne.symm hmng⟩
          rw [List.isPrefixOf_iff_prefix, String.data_append] at hmg
          exact hmg
        · refine isChildOf_iff.mpr ⟨?_, hmnp⟩
          rw [List.isPrefixOf_iff_prefix, String.data_append] at hmp
          exact hmp
    · rintro ⟨hlang, ⟨hpre, hneq⟩, hnom⟩
      refine ⟨g, hg, p, hp, rfl, rfl, hlang, ?_, ?_⟩
      · refine isChildOf_iff.mpr ⟨?_, hneq⟩
        rw [List.isPrefixOf_iff_prefix, String.data_append] at hpre
        exact hpre
      · unfold isDirectParent
        rw [Bool.not_eq_eq_eq_not, Bool.not_true]
        rw [List.any_eq_false]
        intro m hm hcond
        simp only [Bool.and_eq_true, beq_iff_eq, bne_iff_ne] at hcond
        obtain ⟨⟨⟨⟨hml, hmg⟩, hmp⟩, hcg⟩, hcp⟩ := hcond
        obtain ⟨hcgp, -⟩ := isChildOf_iff.mp hcg
        obtain ⟨hcpp, -⟩ := isChildOf_iff.mp hcp
        refine hnom ⟨m, hm, hml, ⟨?_, hmp⟩, ⟨?_, hmg⟩⟩
        · rw [List.isPrefixOf_iff_prefix, String.data_append]
          exact hcpp
        · rw [List.isPrefixOf_iff_prefix, String.data_append]
          exact hcgp
  · intro c p hp hno
    show alGet (initInDeg (groups.map getTaskId) (buildEdges groups)) _ = 0
    rw [alGet_initInDeg]
    have hnil : (buildEdges groups).filter (fun e => e.2 == getTaskId p) = [] := by
      rw [List.filter_eq_nil_iff]
      rintro ⟨a, b⟩ he hbeq
      have hb : b = getTaskId p := by simpa using hbeq
      rw [hb] at he
      obtain ⟨g', hg', p', hp', -, hyp, hlang', hchild', -⟩ :=
        mem_buildEdges.mp he
      have hpp : p' = p := hinj p' hp' p hp hyp.symm
      rw [hpp] at hlang' hchild'
      rw [hno g' hg' hlang'] at hchild'
      exact Bool.false_ne_true hchild'
    rw [hnil]
    rfl

theorem c7_witness :
    (∀ g ∈ exGroups, ∀ p ∈ exGroups,
      ((getTaskId g, getTaskId p) ∈ buildEdges exGroups ↔
        specDirectEdge exGroups g p)) ∧
    (∀ c : Nat, ∀ p ∈ exGroups,
      (∀ g ∈ exGroups, g.language = p.language →
        isChildOf g.directory p.directory = false) →
      alGet (initState c exGroups).inDeg (getTaskId p) = 0) :=
  @c7_edge_iff exGroups (by decide)

theorem c7_counterexample :
    (∀ q ∈ exGroups, isChildOf "/app" q.directory = false) ∧
    alGet (initState 2 exGroups).inDeg "ts:/app" = 1 := by
  decide

theorem likeM_pct (s : List Char) : likeM ['%'] s = true := by
  induction s with
  | nil => simp [likeM]
  | cons ch s' ih => simp [likeM, ih]

theorem foldChar_slash : foldChar '/' = '/' := by decide

theorem likeM_lit (p : List Char) (hp : '%' ∉ p) (hu : '_' ∉ p)
    (hfp : ∀ c ∈ p, foldChar c = c) :
    ∀ s : List Char, (∀ c ∈ s, foldChar c = c) →
    (likeM (p ++ ['/', '%']) s = true ↔ ∃ rest, s = p ++ '/' :: rest) := by
  induction p with
  | nil =>
    intro s hfs
    cases s with
    | nil => simp [likeM]
    | cons ch s' =>
      have hch : foldChar ch = ch := hfs ch (by simp)
      constructor
      · intro h
        simp only [List.nil_append, likeM] at h
        rw [if_neg (by decide : ¬('/' : Char) = '%'),
          if_neg (by decide : ¬('/' : Char) = '_'), Bool.and_eq_true] at h
        obtain ⟨h1, -⟩ := h
        rw [foldChar_slash, hch, beq_iff_eq] at h1
        exact ⟨s', by rw [← h1]; simp⟩
      · rintro ⟨rest, hrest⟩
        simp only [List.nil_append, List.cons.injEq] at hrest
        obtain ⟨h1, h2⟩ := hrest
        subst h1
        subst h2
        show likeM ('/' :: ['%']) ('/' :: s') = true
        simp only [likeM]
        rw [if_neg (by decide : ¬('/' : Char) = '%'),
          if_neg (by decide : ¬('/' : Char) = '_')]
        rw [foldChar_slash, likeM_pct]
        simp
  | cons c p' ih =>
    have hc1 : c ≠ '%' := fun he => hp (by simp [he])
    have hc2 : c ≠ '_' := fun he => hu (by simp [he])
    have hfc : foldChar c = c := hfp c (by simp)
    have hp' : '%' ∉ p' := fun hm => hp (by simp [hm])
    have hu' : '_' ∉ p' := fun hm => hu (by simp [hm])
    have hfp' : ∀ x ∈ p', foldChar x = x := fun x hx => hfp x (by simp [hx])
    intro s hfs
    cases s with
    | nil =>
      constructor
      · intro h
        simp only [List.cons_append, likeM, if_neg hc1] at h
        exact absurd h Bool.false_ne_true
      · rintro ⟨rest, hrest⟩
        simp at hrest
    | cons ch s' =>
      have hch : foldChar ch = ch := hfs ch (by simp)
      have hfs' : ∀ x ∈ s', foldChar x = x := fun x hx => hfs x (by simp [hx])
      have hIH := ih hp' hu' hfp' s' hfs'
      constructor
      · intro h
        simp only [List.cons_append, likeM, if_neg hc1] at h
        rw [if_neg hc2, hfc, hch, Bool.and_eq_true, beq_iff_eq] at h
        obtain ⟨h1, h2⟩ := h
        obtain ⟨rest, hrest⟩ := hIH.mp h2
        exact ⟨rest, by rw [h1, hrest]; simp⟩
      · rintro ⟨rest, hrest⟩
        simp only [List.cons_append, List.cons.injEq] at hrest
        obtain ⟨h1, h2⟩ := hrest
        subst h1
        subst h2
        show likeM (ch :: (p' ++ ['/', '%'])) (ch :: (p' ++ '/' :: rest)) = true
        simp only [likeM, if_neg hc1]
        rw [if_neg hc2, hfc, Bool.and_eq_true]
        exact ⟨by simp, hIH.mpr ⟨rest, rfl⟩⟩

/-- C9 (amended): when the parent directory contains no LIKE wildcards and
both the parent and the stored directories are fixed under SQLite's ASCII
case folding and carry no trailing separator, getChildStyleGuides returns
entries only for rows of the given run and language whose directory is
exactly one path segment below the parent — never the parent itself, never a
deeper descendant — each keyed by the segment relative to the parent.
Without those hypotheses the LIKE pattern also admits unrelated directories
(wildcards in the parent, case-folded matches), which the code then returns. -/
theorem c9_immediate_children {rows : List DBRow}
    {runId parent language : String}
    (hp : '%' ∉ parent.data) (hu : '_' ∉ parent.data)
    (hfp : ∀ ch ∈ parent.data, foldChar ch = ch)
    (hfr : ∀ r ∈ rows, ∀ ch ∈ r.directory.data, foldChar ch = ch)
    (htrail : ∀ r ∈ rows, r.directory.data.getLast? ≠ some '/') :
    ∀ e ∈ getChildStyleGuides rows runId parent language,
      ∃ r ∈ rows, r.run_id = runId ∧ r.language = language ∧
        ∃ rest, rest ≠ [] ∧ '/' ∉ rest ∧
          r.directory.data = parent.data ++ '/' :: rest ∧
          e = (String.mk rest, r.content) := by
  intro e he
  simp only [getChildStyleGuides] at he
  rw [List.mem_map] at he
  obtain ⟨r, hr, he⟩ := he
  rw [List.mem_filter] at hr
  obtain ⟨hr1, hnos⟩ := hr
  rw [List.mem_filter] at hr1
  obtain ⟨hrows, hcond⟩ := hr1
  simp only [Bool.and_eq_true, beq_iff_eq, bne_iff_ne] at hcond
  obtain ⟨⟨⟨hrun, hlang⟩, hlike⟩, hneq⟩ := hcond
  have hpat : (parent ++ "/%").data = parent.data ++ ['/', '%'] := by
    rw [String.data_append]
  rw [hpat] at hlike
  obtain ⟨rest, hrest⟩ :=
    (likeM_lit parent.data hp hu hfp r.directory.data (hfr r hrows)).mp hlike
  have hdrop : r.directory.data.drop (parent.length + 1) = rest := by
    rw [hrest]
    have hsp : parent.data ++ '/' :: rest = (parent.data ++ ['/']) ++ rest := by
      simp
    rw [hsp]
    have hl : parent.length + 1 = (parent.data ++ ['/']).length := by
      rw [List.length_append, List.length_singleton]
      rfl
    rw [hl, List.drop_left]
  have hns : '/' ∉ rest := by
    intro hm
    rw [Bool.not_eq_eq_eq_not, Bool.not_true, hdrop] at hnos
    simp only [List.contains_eq_any_beq, List.any_eq_false] at hnos
    exact hnos '/' hm (by simp)
  have hne : rest ≠ [] := by
    intro hnil
    apply htrail r hrows
    rw [hrest, hnil]
    rw [List.getLast?_append_of_ne_nil parent.data (by simp)]
    rfl
  refine ⟨r, hrows, hrun, hlang, rest, hne, hns, hrest, ?_⟩
  rw [← he]
  have hdir : r.directory = String.mk (parent.data ++ '/' :: rest) :=
    String.ext hrest
  rw [hdir, relativeP_under parent rest hne hns]

theorem c9_witness :
    ∃ r ∈ ex9rows, r.run_id = "r" ∧ r.language = "ts" ∧
      ∃ rest, rest ≠ [] ∧ '/' ∉ rest ∧
        r.directory.data = "/app".data ++ '/' :: rest ∧
        (("src", "guide") : String × String) = (String.mk rest, r.content) :=
  @c9_immediate_children ex9rows "r" "/app" "ts"
    (by decide) (by decide) (by decide) (by decide) (by decide)
    ("src", "guide")
    (by
      have h : getChildStyleGuides ex9rows "r" "/app" "ts" = [("src", "guide")] := by
        simp [getChildStyleGuides, ex9rows, likeM, foldChar]
        decide
      rw [h]
      simp)

theorem c9_counterexample :
    getChildStyleGuides cx9rows "r" "/a%" "ts" = [("../ab/cd", "x")] ∧
    (∀ r ∈ cx9rows, isChildOf r.directory "/a%" = false) ∧
    (∀ r ∈ cx9rows, r.directory ≠ "/a%") :=
  ⟨by
    simp [getChildStyleGuides, cx9rows, likeM, foldChar]
    decide, by decide, by decide⟩
